import Mathlib

/-!
Verification of the rust_asar archive library against its specification.

This file shallowly embeds the core of the library (src/asar.rs,
src/content.rs, src/asar_error.rs) in Lean 4:

* JSON values (`serde_json::Value`) become the inductive `J` / `JMap`
  (association maps mirror `serde_json::Map`; `Map::get` picks the entry
  whose key matches, which agrees with the `BTreeMap` used by serde_json
  whenever keys are unique, as they are in every real map).
  A JSON number is represented by its `as_u64` view (`Option Nat`):
  `J.num (some n)` is a number representable as a `u64` with value `n`,
  `J.num none` is any other number (negative, fractional, too large);
  the library only ever inspects numbers through `as_u64`.
* Machine bytes are `Nat` values below 256; byte strings are `List Nat`.
* Filesystem directories become the inductive `Fs` / `FsList`; paths are
  lists of components (`List String`), mirroring how `std::path::Path`
  compares and joins component-wise. I/O failures of the directory walk
  itself are not modelled (the filesystem is given as a pure tree).
* Fallible operations return `Except Error` / `Option`.
-/

namespace RustAsar

/-- Error enum from src/asar_error.rs.  The payload of `IoError` (the wrapped
OS error) is not modelled; `SerdeJsonError` only arises from JSON
(de)serialization, which is outside the embedding. -/
inductive Error where
  | IoError : Error
  | ParseHeaderError : String → Error
  | UnknownContentType : String → Error
deriving DecidableEq, Repr

/-- `MAX_SAFE_INTEGER` from src/content.rs line 13. -/
def MAX_SAFE_INTEGER : Nat := 9007199254740991

mutual
/-- `serde_json::Value`, restricted to the shapes the library inspects.
`num` carries the `as_u64` view of the number (see file comment). -/
inductive J where
  | null : J
  | bool : Bool → J
  | num : Option Nat → J
  | str : String → J
  | obj : JMap → J
deriving DecidableEq, Repr

/-- `serde_json::Map<String, Value>` as an association list. -/
inductive JMap where
  | mnil : JMap
  | mcons : String → J → JMap → JMap
deriving DecidableEq, Repr
end

/-- `Map::get`: the value stored under `key` (first matching entry). -/
def mapGet : JMap → String → Option J
  | .mnil, _ => none
  | .mcons k v rest, key => if k = key then some v else mapGet rest key

/-- Builds a `JMap` from a list of entries (fixture helper). -/
def JMap.ofList : List (String × J) → JMap
  | [] => .mnil
  | (k, v) :: rest => .mcons k v (JMap.ofList rest)

mutual
/-- Structural size of a JSON value, used as termination measure for the
traversals that re-resolve child descriptors. -/
def jsize : J → Nat
  | .obj m => msize m + 1
  | _ => 0

/-- Structural size of a JSON map. -/
def msize : JMap → Nat
  | .mnil => 0
  | .mcons _ v rest => jsize v + msize rest + 1
end

/-- The `Content` enum from src/content.rs: `file` is `Content::File(name,
offset, size)`, `folder` is `Content::Folder(name, folder_content)`, `home`
is `Content::Home(asar_content)`, `list` is `Content::List(vec)`.  Names are
single map keys; packing-list paths are component lists. -/
inductive Content where
  | file : String → Nat → Nat → Content
  | folder : String → JMap → Content
  | home : JMap → Content
  | list : List (List String × Nat) → Content
deriving DecidableEq, Repr

/-- `u64::from_str` (the `offset.parse::<u64>()` call in `lookahead`):
accepts an optional leading plus sign followed by one or more ASCII digits,
rejecting anything else and values that overflow 64 bits. -/
def parse_u64 (s : String) : Option Nat :=
  let cs := match s.data with
    | '+' :: rest => rest
    | cs => cs
  if cs = [] then none
  else if cs.all (fun c => c.isDigit) then
    let n := cs.foldl (fun acc c => acc * 10 + (c.toNat - 48)) 0
    if n < 2 ^ 64 then some n else none
  else none

/-- `lookahead` from src/content.rs lines 312-373: classifies a raw child
descriptor.  An empty `name` classifies the (unnamed) top-level object.
The message of the `offset.parse::<u64>()` failure is the short tag
`"ParseIntError"`; the real message appends Rust's `ParseIntError`
rendering (e.g. "invalid digit found in string"), which never contains the
entity name. -/
def lookahead (name : String) (item : JMap) : Except Error Content :=
  if name = "" then
    match mapGet item "files" with
    | some (J.obj dir) => .ok (.home dir)
    | _ => .error (.ParseHeaderError "'files' not found in Home directory")
  else
    match mapGet item "offset", mapGet item "size" with
    | some (J.str offset), some (J.num size) =>
      match size with
      | none => .error (.ParseHeaderError ("size nan for file: " ++ name))
      | some size =>
        if size > MAX_SAFE_INTEGER then
          .error (.ParseHeaderError
            ("size of " ++ name ++ " is greater than MAX_SAFE_INTEGER"))
        else
          match parse_u64 offset with
          | none => .error (.ParseHeaderError "ParseIntError")
          | some offset => .ok (.file name offset size)
    | _, _ =>
      match mapGet item "files" with
      | some (J.obj dir) => .ok (.folder name dir)
      | _ => .error (.ParseHeaderError
          ("Error parsing header for entity: " ++ name))

/-- `Content::new_json` from src/content.rs lines 64-72. -/
def new_json (header : J) : Except Error Content :=
  match header with
  | J.obj item => lookahead "" item
  | _ => .error (.UnknownContentType
      "Expected Map<String, Value> for new content type")

/-- `Content::new_list` from src/content.rs lines 88-90. -/
def new_list (l : List (List String × Nat)) : Content := .list l

/-- A value stored in a map is structurally smaller than the map. -/
theorem mapGet_msize : ∀ (m : JMap) (k : String) (v : J),
    mapGet m k = some v → jsize v < msize m
  | .mcons k0 v0 rest, k, v, h => by
    by_cases hk : k0 = k
    · simp [mapGet, hk] at h
      subst h
      simp [msize]
      omega
    · simp [mapGet, hk] at h
      have := mapGet_msize rest k v h
      simp [msize]
      omega

/-- Termination measure on `Content`: the size of the still-unresolved
child map carried by a folder or the root. -/
def cmeasure : Content → Nat
  | .folder _ d => msize d + 1
  | .home d => msize d + 1
  | _ => 0

/-- A successfully classified child is bounded by the descriptor it was
classified from. -/
theorem lookahead_cmeasure {name : String} {item : JMap} {c : Content}
    (h : lookahead name item = .ok c) : cmeasure c ≤ msize item := by
  unfold lookahead at h
  split at h
  · split at h
    · rename_i dir hg
      cases h
      have := mapGet_msize _ _ _ hg
      simp only [cmeasure, jsize] at *
      omega
    · simp at h
  · split at h
    · split at h
      · simp at h
      · split at h
        · simp at h
        · split at h
          · simp at h
          · cases h
            simp [cmeasure]
    · split at h
      · rename_i dir hg
        cases h
        have := mapGet_msize _ _ _ hg
        simp only [cmeasure, jsize] at *
        omega
      · simp at h

mutual
/-- `find_aux` inside `Content::find` (src/content.rs lines 238-301).
Paths are component lists; `path.as_ref().file_stem()` is `None` exactly
for the empty path, `starts_with` is component-wise prefix, `join` appends
a component.  The `lookahead(..).unwrap()` calls panic when the child
descriptor is malformed; a panic is modelled as the outer `none`
(so `some r` is a normal return with result `r`). -/
def find_aux (c : Content) (path : List String) (curr : List String) :
    Option (Option Content) :=
  match c with
  | .home dir =>
    if path.isEmpty then some (some (.home dir))
    else find_loop dir path curr
  | .file name offset size =>
    if path = curr ++ [name] then some (some (.file name offset size))
    else some none
  | .folder name dir =>
    if curr ++ [name] = path then some (some (.folder name dir))
    else find_loop dir path (curr ++ [name])
  | .list l => some none
termination_by cmeasure c
decreasing_by
  · simp [cmeasure]
  · simp [cmeasure]

/-- The child-scanning loop shared by the `Home` and `Folder` arms of
`find_aux`: return into the first child whose joined path is a prefix of
the request and whose descriptor is a JSON object; skip non-object
children; fall through to `none` (not found). -/
def find_loop (m : JMap) (path : List String) (curr : List String) :
    Option (Option Content) :=
  match m with
  | .mnil => some none
  | .mcons n v rest =>
    if (curr ++ [n]).isPrefixOf path then
      match v with
      | .obj item =>
        match h : lookahead n item with
        | .ok c => find_aux c path curr
        | .error _ => none
      | _ => find_loop rest path curr
    else find_loop rest path curr
termination_by msize m
decreasing_by
  · have := lookahead_cmeasure h
    simp only [msize, jsize] at *
    omega
  · simp only [msize]
    omega
  · simp only [msize]
    omega
end

/-- `Content::find` (src/content.rs lines 233-305). -/
def find (c : Content) (path : List String) : Option (Option Content) :=
  find_aux c path []

mutual
/-- `paths_to_vec_aux` (src/content.rs lines 375-413).  The shared mutable
vector is modelled by returning the list of paths this call pushes, in push
order: a folder pushes its own path before recursing into its children. -/
def paths_to_vec_aux (c : Content) (path : List String) :
    Except Error (List (List String)) :=
  match c with
  | .folder name dir => do
    let sub ← paths_loop dir (path ++ [name])
    .ok ((path ++ [name]) :: sub)
  | .file name _ _ => .ok [path ++ [name]]
  | _ => .error (.UnknownContentType "Unexepcted Content Type")
termination_by cmeasure c
decreasing_by
  simp [cmeasure]

/-- The child loop of the `Folder` arm of `paths_to_vec_aux`: children are
classified and visited in map order; a non-object child is an
`UnknownContentType` error. -/
def paths_loop (m : JMap) (path : List String) :
    Except Error (List (List String)) :=
  match m with
  | .mnil => .ok []
  | .mcons n v rest =>
    match v with
    | .obj item =>
      match h : lookahead n item with
      | .ok c => do
        let ps ← paths_to_vec_aux c path
        let rest' ← paths_loop rest path
        .ok (ps ++ rest')
      | .error e => .error e
    | _ => .error (.UnknownContentType "Uknown content type, expected Object")
termination_by msize m
decreasing_by
  · have := lookahead_cmeasure h
    simp only [msize, jsize] at *
    omega
  · simp only [msize]
    omega
end

/-- The root loop of `Content::paths_to_vec` over `Content::Home`
(src/content.rs lines 100-109): children that are not JSON objects are
silently skipped; object children are classified (errors propagate) and
walked with the empty base path. -/
def home_paths (m : JMap) : Except Error (List (List String)) :=
  match m with
  | .mnil => .ok []
  | .mcons n v rest =>
    match v with
    | .obj item =>
      match h : lookahead n item with
      | .ok c => do
        let ps ← paths_to_vec_aux c []
        let rest' ← home_paths rest
        .ok (ps ++ rest')
      | .error e => .error e
    | _ => home_paths rest

/-- `Content::paths_to_vec` (src/content.rs lines 96-118). -/
def paths_to_vec (c : Content) : Except Error (List (List String)) :=
  match c with
  | .home dir => home_paths dir
  | _ => .error (.UnknownContentType
      "Unexpected Content Type: expected Content::Home")

/-- Effects of extraction on the destination filesystem, in the order the
source performs them: directory creations (`DirBuilder::create`, recursive
and hence idempotent) and whole-file writes (`File::create` +
`write_all`). -/
inductive FsOp where
  | mkdir : List String → FsOp
  | write : List String → List Nat → FsOp
deriving DecidableEq, Repr

/-- `read_exact_at` of the `positioned_io::ReadAt` impl for `File`: reads
exactly `len` bytes at absolute offset `pos`, failing when the source is
too short. -/
def read_exact_at (bytes : List Nat) (pos len : Nat) : Option (List Nat) :=
  if pos + len ≤ bytes.length then some ((bytes.drop pos).take len)
  else none

mutual
/-- `Content::asar_to_dir` (src/content.rs lines 134-188): walks the tree,
reading each file's `size` bytes at `start + offset` from the archive
(`bytes`) and recording the directory creations and file writes it performs.
Creating a directory never fails in the model (`DirBuilder` is recursive,
so existing directories are accepted); a short read is an `IoError`. -/
def asar_to_dir (c : Content) (base : List String) (bytes : List Nat)
    (start : Nat) : Except Error (List FsOp) :=
  match c with
  | .home dir => home_extract_loop dir base bytes start
  | .folder name dir => do
    let ops ← folder_extract_loop dir (base ++ [name]) bytes start
    .ok (FsOp.mkdir (base ++ [name]) :: ops)
  | .file name offset size =>
    match read_exact_at bytes (start + offset) size with
    | some v => .ok [FsOp.write (base ++ [name]) v]
    | none => .error .IoError
  | .list _ => .error (.UnknownContentType "Asar archive file must be src_path")
termination_by cmeasure c
decreasing_by
  · simp [cmeasure]
  · simp [cmeasure]

/-- The `Home` arm's loop: for each object child the parent directory is
(re-)created, the child classified (errors propagate) and extracted;
non-object children are silently skipped. -/
def home_extract_loop (m : JMap) (base : List String) (bytes : List Nat)
    (start : Nat) : Except Error (List FsOp) :=
  match m with
  | .mnil => .ok []
  | .mcons n v rest =>
    match v with
    | .obj item =>
      match h : lookahead n item with
      | .ok c => do
        let ops ← asar_to_dir c base bytes start
        let opsRest ← home_extract_loop rest base bytes start
        .ok (FsOp.mkdir base :: ops ++ opsRest)
      | .error e => .error e
    | _ => home_extract_loop rest base bytes start
termination_by msize m
decreasing_by
  · have := lookahead_cmeasure h
    simp only [msize, jsize] at *
    omega
  · simp only [msize]
    omega
  · simp only [msize]
    omega

/-- The `Folder` arm's loop: like the `Home` loop but without the
per-iteration parent creation (the folder was created by the caller). -/
def folder_extract_loop (m : JMap) (base : List String) (bytes : List Nat)
    (start : Nat) : Except Error (List FsOp) :=
  match m with
  | .mnil => .ok []
  | .mcons n v rest =>
    match v with
    | .obj item =>
      match h : lookahead n item with
      | .ok c => do
        let ops ← asar_to_dir c base bytes start
        let opsRest ← folder_extract_loop rest base bytes start
        .ok (ops ++ opsRest)
      | .error e => .error e
    | _ => folder_extract_loop rest base bytes start
termination_by msize m
decreasing_by
  · have := lookahead_cmeasure h
    simp only [msize, jsize] at *
    omega
  · simp only [msize]
    omega
  · simp only [msize]
    omega
end

mutual
/-- A source filesystem tree: a file with its byte contents, or a
directory whose children (`FsList`) are listed in the order
`fs::read_dir` yields them. -/
inductive Fs where
  | file : List Nat → Fs
  | dir : FsList → Fs
deriving DecidableEq, Repr

/-- The children of a directory: (entry name, entry) in enumeration
order. -/
inductive FsList where
  | fnil : FsList
  | fcons : String → Fs → FsList → FsList
deriving DecidableEq, Repr
end

mutual
/-- `Asar::dir_to_value` (src/asar.rs lines 125-155): walks `fs`, building
the header JSON while threading the running `offset` and the shared packing
`list`.  A file contributes `{"size": len, "offset": toString offset}`,
appends `(path, len)` to the list and advances the offset; a directory
recurses over its children and wraps them in a `files` object.
`serde_json::Map::insert` into the per-directory map is modelled by
building the association list in insertion order (key lookup agrees with
the sorted `BTreeMap` because `read_dir` never repeats a name). -/
def dir_to_value (fs : Fs) (path : List String) (offset : Nat)
    (list : List (List String × Nat)) :
    J × Nat × List (List String × Nat) :=
  match fs with
  | .file bytes =>
    (J.obj (.mcons "size" (.num (some bytes.length))
        (.mcons "offset" (.str (toString offset)) .mnil)),
      offset + bytes.length, list ++ [(path, bytes.length)])
  | .dir children =>
    let r := dir_children children path offset list
    (J.obj (.mcons "files" (.obj r.1) .mnil), r.2.1, r.2.2)

/-- The `read_dir` loop of `dir_to_value`: recurse into each child in
enumeration order, collecting the `files` map entries and threading the
offset and the packing list. -/
def dir_children (cs : FsList) (path : List String) (offset : Nat)
    (list : List (List String × Nat)) :
    JMap × Nat × List (List String × Nat) :=
  match cs with
  | .fnil => (.mnil, offset, list)
  | .fcons n c rest =>
    let r := dir_to_value c (path ++ [n]) offset list
    let r' := dir_children rest path r.2.1 r.2.2
    (.mcons n r.1 r'.1, r'.2.1, r'.2.2)
end

/-- `Asar::gen_header_from_dir` (src/asar.rs lines 108-121): runs the walk
from offset 0 with an empty list. -/
def gen_header_from_dir (fs : Fs) : J × List (List String × Nat) :=
  let r := dir_to_value fs [] 0 []
  (r.1, r.2.2)

/-- Lookup of a child entry in a directory listing. -/
def flGet : FsList → String → Option Fs
  | .fnil, _ => none
  | .fcons n c rest, key => if n = key then some c else flGet rest key

/-- `File::open` + read of a path in the source filesystem: resolves the
component list to a file's bytes (fails on missing entries and on
directories). -/
def readFs : Fs → List String → Option (List Nat)
  | .file b, [] => some b
  | .dir _, [] => none
  | .file _, _ :: _ => none
  | .dir cs, n :: rest =>
    match flGet cs n with
    | some c => readFs c rest
    | none => none

/-- The packing-list loop of `Content::dir_to_asar` (src/content.rs lines
200-221): for each `(path, size)` it allocates `vec![0; size]`, opens the
path and calls `read_to_end`, which APPENDS the file's contents after the
`size` zero bytes already in the buffer, then writes the whole buffer to
the archive.  A missing file is an `IoError`. -/
def dir_to_asar_go (l : List (List String × Nat)) (fs : Fs) :
    Except Error (List Nat) :=
  match l with
  | [] => .ok []
  | (path, size) :: rest =>
    match readFs fs path with
    | some contents => do
      let restBytes ← dir_to_asar_go rest fs
      .ok ((List.replicate size 0 ++ contents) ++ restBytes)
    | none => .error .IoError

/-- `Content::dir_to_asar` (src/content.rs lines 200-221): only the `List`
variant is accepted; the bytes appended after the header are returned. -/
def dir_to_asar (c : Content) (fs : Fs) : Except Error (List Nat) :=
  match c with
  | .list l => dir_to_asar_go l fs
  | _ => .error (.UnknownContentType
      "Folder must be src_path, Asar archive file found")

/-- `WriteBytesExt::write_u32::<LittleEndian>`: the four little-endian bytes
of `n` reduced to 32 bits. -/
def u32le (n : Nat) : List Nat :=
  [n % 256, n / 256 % 256, n / 65536 % 256, n / 16777216 % 256]

/-- `ReadBytesExt::read_u32_at::<LittleEndian>`: the little-endian 32-bit
value at byte offset `pos`, failing when the source is too short. -/
def read_u32_at (bytes : List Nat) (pos : Nat) : Option Nat :=
  if pos + 4 ≤ bytes.length then
    some ((bytes.drop pos).take 4 |>.reverse.foldl (fun acc b => acc * 256 + b % 256) 0)
  else none

/-- The fields of the `Asar` struct (src/asar.rs lines 29-35) that
`Asar::pack` and `Asar::get_file` read.  `header` stores the UTF-8
serialization `serde_json::to_vec(&header)` of the header value, since the
library only ever uses the header through that serialization; for a
directory source `Asar::open` sets `start` to that serialization's length
plus 16. -/
structure AsarS where
  content : Content
  start : Nat
  header : Option (List Nat)

/-- `Asar::pack` (src/asar.rs lines 191-242): requires a stored header
value, writes the four little-endian u32 fields `4`, `start - 8`,
`start - 12`, `start - 16` (each truncated to 32 bits by the `as u32`
cast), then the serialized header, then the `dir_to_asar` bytes.
Destination-file creation and truncation are not modelled; the produced
byte string is returned. -/
def pack (a : AsarS) (fs : Fs) : Except Error (List Nat) :=
  match a.header with
  | none => .error (.UnknownContentType "Can not have Asar archive file open")
  | some headerBytes => do
    let dataBytes ← dir_to_asar a.content fs
    .ok (u32le 4 ++ u32le ((a.start - 8) % 2 ^ 32) ++
      u32le ((a.start - 12) % 2 ^ 32) ++ u32le ((a.start - 16) % 2 ^ 32) ++
      headerBytes ++ dataBytes)

/-- `Asar::get_asar_header` (src/asar.rs lines 84-97): reads the u32 at
offset 12 as the JSON length, reads that many bytes at offset 16, and
returns them with `start` = (u32 at offset 8) + 12.  The
`serde_json::from_slice` parse of the returned payload is not modelled
(it can only turn success into failure and does not affect `start`); the
payload bytes stand for the parsed value. -/
def get_asar_header (bytes : List Nat) : Option (List Nat × Nat) :=
  match read_u32_at bytes 12 with
  | none => none
  | some json_len =>
    match read_exact_at bytes 16 json_len with
    | none => none
    | some json_u8 =>
      match read_u32_at bytes 8 with
      | none => none
      | some header_len => some (json_u8, header_len + 12)

/-- `Asar::get_file` (src/asar.rs lines 253-272): `srcIsDir` is
`self.src_path.is_dir()`, `archive` is the result of re-opening
`self.src_path` (`none` models an open failure).  Returns within
`Option`: the outer `none` is the panic propagated from `find`'s
`lookahead(..).unwrap()` on a malformed descriptor; every normal outcome
is `some` of the function's `Option<Vec<u8>>` result. -/
def get_file (srcIsDir : Bool) (c : Content) (start : Nat)
    (archive : Option (List Nat)) (path : List String) :
    Option (Option (List Nat)) :=
  if srcIsDir then some none
  else
    match find c path with
    | none => none
    | some r =>
      match r with
      | some (.file _ offset size) =>
        match archive with
        | none => some none
        | some bytes =>
          match read_exact_at bytes (start + offset) size with
          | some v => some (some v)
          | none => some none
      | _ => some none

/-! ### Statement helpers

Pure functions used only to state properties of the embedded code. -/

/-- A serialized file descriptor as `dir_to_value` builds it. -/
def fileDescOut (offset : Nat) (size : Nat) : J :=
  J.obj (.mcons "size" (.num (some size))
    (.mcons "offset" (.str (toString offset)) .mnil))

/-- A file descriptor as serde parses it from header JSON text (the
`BTreeMap` iterates keys sorted, so `offset` precedes `size`). -/
def fileDescIn (offset : String) (size : Nat) : J :=
  J.obj (.mcons "offset" (.str offset) (.mcons "size" (.num (some size)) .mnil))

/-- Descends through a header JSON value along a component path: each step
enters the current object's `files` map and selects the named child. -/
def jsonAt : J → List String → Option J
  | j, [] => some j
  | .obj m, n :: rest =>
    match mapGet m "files" with
    | some (.obj ch) =>
      match mapGet ch n with
      | some c => jsonAt c rest
      | none => none
    | _ => none
  | _, _ => none

mutual
/-- The files of a source tree in enumeration order, as (relative path,
size) pairs — the order in which `dir_to_value` visits them. -/
def walk : Fs → List (List String × Nat)
  | .file b => [([], b.length)]
  | .dir cs => walkL cs

/-- `walk` over a directory listing. -/
def walkL : FsList → List (List String × Nat)
  | .fnil => []
  | .fcons n c rest => (walk c).map (fun e => (n :: e.1, e.2)) ++ walkL rest
end

/-- Total size of the files of a tree. -/
def wsum (fs : Fs) : Nat := ((walk fs).map (fun e => e.2)).sum

/-- Pairs every `(path, size)` entry with its running offset: the offset of
each entry is the sum of the sizes of all entries before it. -/
def withOffsets : Nat → List (List String × Nat) → List (List String × Nat × Nat)
  | _, [] => []
  | o, (p, s) :: rest => (p, o, s) :: withOffsets (o + s) rest

/-- The names of a directory listing. -/
def flNames : FsList → List String
  | .fnil => []
  | .fcons n _ rest => n :: flNames rest

mutual
/-- Well-formedness of a source tree: sibling names are distinct at every
level (true of every real directory). -/
def fsWf : Fs → Bool
  | .file _ => true
  | .dir cs => decide (flNames cs).Nodup && flWf cs

/-- `fsWf` for every entry of a listing. -/
def flWf : FsList → Bool
  | .fnil => true
  | .fcons _ c rest => fsWf c && flWf rest
end

/-- The children of the fixture's `folder1`. -/
def folder1Map : JMap := JMap.ofList
  [("script.py", fileDescIn "0" 55),
   ("test_image.jpg", fileDescIn "55" 29968)]

/-- The decoded fixture header used by the repository's tests
(test_header.json): folder `folder1` holding `script.py` (offset 0,
size 55) and `test_image.jpg` (offset 55, size 29968), and root-level file
`test1.txt` (offset 30023, size 21).  Maps are listed in the sorted order
serde's `BTreeMap` iterates them. -/
def fixtureMap : JMap := JMap.ofList
  [("folder1", J.obj (JMap.ofList [("files", J.obj folder1Map)])),
   ("test1.txt", fileDescIn "30023" 21)]

/-- The fixture tree as `Content::new_json` builds it. -/
def fixtureHome : Content := .home fixtureMap

/-- The two-files-then-nothing-else source directory of claim C2: file `A`
of 10 bytes followed by file `B` of 5 bytes, in enumeration order. -/
def fsAB : Fs := .dir (.fcons "A" (.file (List.replicate 10 1))
  (.fcons "B" (.file (List.replicate 5 2)) .fnil))

/-- A directory whose first file is empty: the zero-size file makes the
next file reuse its offset. -/
def fsZero : Fs := .dir (.fcons "a" (.file []) (.fcons "b" (.file [7]) .fnil))

/-- A directory holding the single one-byte file `a`. -/
def fsOne : Fs := .dir (.fcons "a" (.file [1]) .fnil)

/-- The `offset` of a serialized file descriptor, as the extraction side
reads it (string field parsed as `u64`). -/
def descOffset : J → Option Nat
  | .obj m =>
    match mapGet m "offset" with
    | some (.str s) => parse_u64 s
    | _ => none
  | _ => none

/-- The offsets the walk of `fs` assigned to its packing-list entries, each
read back from the produced header at the entry's own path. -/
def listedOffsets (fs : Fs) : List (Option Nat) :=
  ((gen_header_from_dir fs).2).map
    (fun e => (jsonAt (gen_header_from_dir fs).1 e.1).bind descOffset)

/-- Total size of a list of packing entries. -/
def sizesSum (l : List (List String × Nat)) : Nat := (l.map (fun e => e.2)).sum

/-- Whether a descriptor carries a string `offset` and a number `size`
(the shape `lookahead`'s first match arm accepts, ignoring validation). -/
def typedFileShape (item : JMap) : Bool :=
  match mapGet item "offset", mapGet item "size" with
  | some (.str _), some (.num _) => true
  | _, _ => false

/-- Whether a descriptor carries a `files` field that is an object. -/
def hasFilesObj (item : JMap) : Bool :=
  match mapGet item "files" with
  | some (.obj _) => true
  | _ => false

/-- Claim C6's classification rule, written from the claim's own words for
comparison with `lookahead`: File iff both a `size` that is a JSON number
and an `offset` that is a decimal string; otherwise Folder iff a `files`
object; otherwise a parse error. -/
inductive SpecClass where
  | fileC : SpecClass
  | folderC : SpecClass
  | errC : SpecClass
deriving DecidableEq, Repr

/-- The claim's File shape: a number `size` and a decimal-string
`offset`. -/
def specFileShape (item : JMap) : Bool :=
  (match mapGet item "size" with
    | some (.num _) => true
    | _ => false) &&
  (match mapGet item "offset" with
    | some (.str s) => (parse_u64 s).isSome
    | _ => false)

/-- The classification claim C6 predicts for a named child descriptor. -/
def c6SpecClassify (item : JMap) : SpecClass :=
  if specFileShape item then .fileC
  else if hasFilesObj item then .folderC
  else .errC

/-- A descriptor carrying a number `size`, a non-decimal string `offset`
and a `files` object: claim C6 classifies it as a Folder, the code
rejects it. -/
def cxDesc : JMap := JMap.ofList
  [("offset", .str "abc"), ("size", .num (some 5)), ("files", .obj .mnil)]

/-- The keys of a map, in iteration order. -/
def jmKeys : JMap → List String
  | .mnil => []
  | .mcons k _ rest => k :: jmKeys rest

mutual
/-- Well-formedness of the children map of a folder or of the root, true
of every map serde parses from a real archive header: keys are non-empty
and pairwise distinct, and every child descriptor classifies successfully
as a File or as a Folder whose own children map is again well-formed. -/
def jmWf : JMap → Bool
  | .mnil => true
  | .mcons k v rest =>
    decide (¬ k = "") && decide (k ∉ jmKeys rest) && childWf k v && jmWf rest
termination_by m => msize m
decreasing_by
  · simp only [msize]
    omega
  · simp only [msize]
    omega

/-- Well-formedness of a single child: an object that `lookahead`
classifies, with a well-formed children map when it is a folder. -/
def childWf (k : String) (v : J) : Bool :=
  match v with
  | .obj item =>
    match h : lookahead k item with
    | .ok (.file _ _ _) => true
    | .ok (.folder _ dir) => jmWf dir
    | .ok _ => false
    | .error _ => false
  | _ => false
termination_by jsize v
decreasing_by
  have := lookahead_cmeasure h
  simp only [cmeasure, jsize] at *
  omega
end

mutual
/-- The Folder and File nodes (with their full paths) reachable from the
children map of a folder or root located at `base`, in map iteration
order, each folder listed immediately before its own descendants: the
specification of both path enumeration and path lookup.  A malformed or
non-object child contributes no nodes. -/
def nodesOfMap : JMap → List String → List (List String × Content)
  | .mnil, _ => []
  | .mcons k v rest, base => childNodes k v base ++ nodesOfMap rest base
termination_by m _ => msize m
decreasing_by
  · simp only [msize]
    omega
  · simp only [msize]
    omega

/-- The nodes a single named child contributes. -/
def childNodes (k : String) (v : J) (base : List String) :
    List (List String × Content) :=
  match v with
  | .obj item =>
    match h : lookahead k item with
    | .ok (.file n off sz) => [(base ++ [k], .file n off sz)]
    | .ok (.folder n dir) =>
      (base ++ [k], .folder n dir) :: nodesOfMap dir (base ++ [k])
    | .ok _ => []
    | .error _ => []
  | _ => []
termination_by jsize v
decreasing_by
  have := lookahead_cmeasure h
  simp only [cmeasure, msize, jsize] at *
  omega
end

/-! ### General lemmas -/

theorem u32le_length (n : Nat) : (u32le n).length = 4 := rfl

/-- Reading back a little-endian u32 recovers the written value modulo
`2 ^ 32`. -/
theorem read_u32_at_u32le (n : Nat) (rest : List Nat) :
    read_u32_at (u32le n ++ rest) 0 = some (n % 2 ^ 32) := by
  simp [read_u32_at, u32le, List.take, List.drop]
  omega

/-- Reading a u32 past a known-length prefix. -/
theorem read_u32_at_append (pre rest : List Nat) :
    read_u32_at (pre ++ rest) pre.length = read_u32_at rest 0 := by
  unfold read_u32_at
  rw [List.drop_append_of_le_length (le_refl _)]
  simp [List.length_append]

/-- `read_exact_at` returns exactly the requested number of bytes. -/
theorem read_exact_at_length {bytes : List Nat} {pos len : Nat}
    {v : List Nat} (h : read_exact_at bytes pos len = some v) :
    v.length = len := by
  unfold read_exact_at at h
  split at h
  · cases h
    rename_i hle
    simp
    omega
  · cases h

/-- Dropping past a written u32 skips exactly its four bytes. -/
theorem drop_u32le (x : Nat) (rest : List Nat) (k : Nat) :
    (u32le x ++ rest).drop (4 + k) = rest.drop k := by
  have h4 : (u32le x).length = 4 := rfl
  rw [← h4, List.drop_append]

/-- Reading a u32 past a written u32 shifts the position by four. -/
theorem read_u32_at_shift (x : Nat) (rest : List Nat) (k : Nat) :
    read_u32_at (u32le x ++ rest) (4 + k) = read_u32_at rest k := by
  unfold read_u32_at
  simp only [List.length_append, u32le_length]
  by_cases hc : k + 4 ≤ rest.length
  · rw [if_pos (by omega), if_pos hc, drop_u32le]
  · rw [if_neg (by omega), if_neg hc]

/-- Positional reads of the sixteen-byte envelope followed by a payload. -/
theorem envelope_fields (a b c d : Nat) (hb dd : List Nat) :
    read_u32_at (u32le a ++ u32le b ++ u32le c ++ u32le d ++ hb ++ dd) 0 =
      some (a % 2 ^ 32) ∧
    read_u32_at (u32le a ++ u32le b ++ u32le c ++ u32le d ++ hb ++ dd) 4 =
      some (b % 2 ^ 32) ∧
    read_u32_at (u32le a ++ u32le b ++ u32le c ++ u32le d ++ hb ++ dd) 8 =
      some (c % 2 ^ 32) ∧
    read_u32_at (u32le a ++ u32le b ++ u32le c ++ u32le d ++ hb ++ dd) 12 =
      some (d % 2 ^ 32) ∧
    (u32le a ++ u32le b ++ u32le c ++ u32le d ++ hb ++ dd).drop 16 = hb ++ dd := by
  simp only [List.append_assoc]
  refine ⟨?_, ?_, ?_, ?_, ?_⟩
  · exact read_u32_at_u32le a _
  · rw [show (4 : Nat) = 4 + 0 from rfl, read_u32_at_shift]
    exact read_u32_at_u32le b _
  · rw [show (8 : Nat) = 4 + (4 + 0) from rfl, read_u32_at_shift,
      read_u32_at_shift]
    exact read_u32_at_u32le c _
  · rw [show (12 : Nat) = 4 + (4 + (4 + 0)) from rfl, read_u32_at_shift,
      read_u32_at_shift, read_u32_at_shift]
    exact read_u32_at_u32le d _
  · rw [show (16 : Nat) = 4 + (4 + (4 + (4 + 0))) from rfl, drop_u32le,
      drop_u32le, drop_u32le, drop_u32le, List.drop_zero]

/-- `find` on the fixture resolves `test1.txt` to its File node. -/
theorem find_fixture_test1 :
    find fixtureHome ["test1.txt"] =
      some (some (.file "test1.txt" 30023 21)) := by
  simp [find, find_aux, find_loop, lookahead, mapGet, fixtureHome,
    fixtureMap, folder1Map, JMap.ofList, fileDescIn, parse_u64,
    List.isPrefixOf, MAX_SAFE_INTEGER]

/-- `find` on the fixture resolves `folder1` to its Folder node. -/
theorem find_fixture_folder1 :
    find fixtureHome ["folder1"] =
      some (some (.folder "folder1" folder1Map)) := by
  simp [find, find_aux, find_loop, lookahead, mapGet, fixtureHome,
    fixtureMap, folder1Map, JMap.ofList, fileDescIn, parse_u64,
    List.isPrefixOf, MAX_SAFE_INTEGER]

/-- `Nat.repr` of zero and of ten, for rewriting the offset strings the
walk emits. -/
theorem toString_zero : (toString (0 : Nat)) = "0" := rfl

theorem withOffsets_append (l1 l2 : List (List String × Nat)) :
    ∀ o, withOffsets o (l1 ++ l2) =
      withOffsets o l1 ++ withOffsets (o + sizesSum l1) l2 := by
  induction l1 with
  | nil => intro o; simp [withOffsets, sizesSum]
  | cons e rest ih =>
    intro o
    obtain ⟨p, s⟩ := e
    simp [withOffsets, sizesSum, ih (o + s)]
    congr 1
    omega

theorem withOffsets_map_prepend (n : String) (l : List (List String × Nat)) :
    ∀ o, withOffsets o (l.map (fun e => (n :: e.1, e.2))) =
      (withOffsets o l).map (fun e => (n :: e.1, e.2)) := by
  induction l with
  | nil => intro o; simp [withOffsets]
  | cons e rest ih =>
    intro o
    obtain ⟨p, s⟩ := e
    simp [withOffsets, ih (o + s)]

theorem withOffsets_proj (l : List (List String × Nat)) :
    ∀ o, (withOffsets o l).map (fun e => (e.1, e.2.2)) = l := by
  induction l with
  | nil => intro o; simp [withOffsets]
  | cons e rest ih =>
    intro o
    obtain ⟨p, s⟩ := e
    simp [withOffsets, ih (o + s)]

theorem withOffsets_mem {l : List (List String × Nat)} {o : Nat}
    {e : List String × Nat × Nat} (h : e ∈ withOffsets o l) :
    (e.1, e.2.2) ∈ l := by
  have := withOffsets_proj l o
  rw [← this]
  exact List.mem_map_of_mem _ h



mutual
/-- `dir_to_value` appends the walked files to the packing list in
enumeration order and advances the offset by their total size. -/
theorem dtv_thread (fs : Fs) (p : List String) (o : Nat)
    (l : List (List String × Nat)) :
    (dir_to_value fs p o l).2.1 = o + wsum fs ∧
    (dir_to_value fs p o l).2.2 =
      l ++ (walk fs).map (fun e => (p ++ e.1, e.2)) := by
  cases fs with
  | file b => simp [dir_to_value, walk, wsum]
  | dir cs =>
    have h := dtc_thread cs p o l
    exact ⟨by simp [dir_to_value, walk, wsum, sizesSum] at h ⊢; exact h.1,
      by simp [dir_to_value, walk] at h ⊢; exact h.2⟩

/-- `dir_children`, likewise, over a directory listing. -/
theorem dtc_thread (cs : FsList) (p : List String) (o : Nat)
    (l : List (List String × Nat)) :
    (dir_children cs p o l).2.1 = o + sizesSum (walkL cs) ∧
    (dir_children cs p o l).2.2 =
      l ++ (walkL cs).map (fun e => (p ++ e.1, e.2)) := by
  cases cs with
  | fnil => simp [dir_children, walkL, sizesSum]
  | fcons n c rest =>
    have h1 := dtv_thread c (p ++ [n]) o l
    have h2 := dtc_thread rest p (dir_to_value c (p ++ [n]) o l).2.1
      (dir_to_value c (p ++ [n]) o l).2.2
    constructor
    · rw [show (dir_children (.fcons n c rest) p o l).2.1 =
        (dir_children rest p (dir_to_value c (p ++ [n]) o l).2.1
          (dir_to_value c (p ++ [n]) o l).2.2).2.1 from rfl]
      rw [h2.1, h1.1]
      have hcomp : ((fun e : List String × Nat => e.2) ∘
          fun e : List String × Nat => (n :: e.1, e.2)) =
          (fun e : List String × Nat => e.2) := by
        funext e
        rfl
      simp [walkL, sizesSum, wsum, hcomp]
      omega
    · rw [show (dir_children (.fcons n c rest) p o l).2.2 =
        (dir_children rest p (dir_to_value c (p ++ [n]) o l).2.1
          (dir_to_value c (p ++ [n]) o l).2.2).2.2 from rfl]
      rw [h2.2, h1.2]
      have hcomp2 : ((fun e : List String × Nat => (p ++ e.1, e.2)) ∘
          fun e : List String × Nat => (n :: e.1, e.2)) =
          (fun e : List String × Nat => (p ++ [n] ++ e.1, e.2)) := by
        funext e
        simp
      rw [show walkL (.fcons n c rest) =
        (walk c).map (fun e => (n :: e.1, e.2)) ++ walkL rest from rfl]
      rw [List.map_append, List.map_map, hcomp2, List.append_assoc]
end

/-- Every path walked out of a directory listing starts with the name of
one of its entries. -/
theorem walkL_names : ∀ (cs : FsList) (q : List String) (sz : Nat),
    (q, sz) ∈ walkL cs → ∃ n p, q = n :: p ∧ n ∈ flNames cs
  | .fcons n0 c0 rest, q, sz, h => by
    rw [show walkL (.fcons n0 c0 rest) =
      (walk c0).map (fun e => (n0 :: e.1, e.2)) ++ walkL rest from rfl] at h
    rcases List.mem_append.mp h with h1 | h2
    · obtain ⟨e, _, he⟩ := List.mem_map.mp h1
      refine ⟨n0, e.1, ?_, by simp [flNames]⟩
      have := congrArg Prod.fst he
      simpa using this.symm
    · obtain ⟨n, p, hq, hn⟩ := walkL_names rest q sz h2
      exact ⟨n, p, hq, by simp [flNames, hn]⟩
  | .fnil, q, sz, h => by simp [walkL] at h



mutual
/-- Each file walked out of `fs` is recorded in the produced header, at its
own path, with the running offset `withOffsets` pairs it with — the sum of
the sizes of all files walked before it. -/
theorem dtv_offsets (fs : Fs) (p : List String) (o : Nat)
    (l : List (List String × Nat)) (hwf : fsWf fs = true) :
    ∀ q off sz, (q, off, sz) ∈ withOffsets o (walk fs) →
      jsonAt (dir_to_value fs p o l).1 q = some (fileDescOut off sz) := by
  cases fs with
  | file b =>
    intro q off sz hmem
    rw [show walk (.file b) = [([], b.length)] from rfl] at hmem
    rw [show withOffsets o [([], b.length)] = [([], o, b.length)] from rfl]
      at hmem
    simp at hmem
    obtain ⟨hq, hoff, hsz⟩ := hmem
    subst hq
    subst hoff
    subst hsz
    rfl
  | dir cs =>
    intro q off sz hmem
    simp only [fsWf, Bool.and_eq_true, decide_eq_true_eq] at hwf
    rw [show walk (.dir cs) = walkL cs from rfl] at hmem
    obtain ⟨n, q', hq, _⟩ :=
      walkL_names cs q sz (withOffsets_mem hmem)
    subst hq
    obtain ⟨c, hget, hjson⟩ :=
      dtc_offsets cs p o l hwf.1 hwf.2 n q' off sz hmem
    rw [show (dir_to_value (.dir cs) p o l).1 =
      J.obj (.mcons "files" (.obj (dir_children cs p o l).1) .mnil) from rfl]
    rw [show jsonAt
        (J.obj (.mcons "files" (.obj (dir_children cs p o l).1) .mnil))
        (n :: q') =
      (match mapGet (dir_children cs p o l).1 n with
        | some c => jsonAt c q'
        | none => none) from by simp [jsonAt, mapGet]]
    rw [hget]
    exact hjson

/-- `dtv_offsets` over a directory listing: the produced `files` map sends
each walked child name to a value holding the walked descriptor. -/
theorem dtc_offsets (cs : FsList) (p : List String) (o : Nat)
    (l : List (List String × Nat)) (hnd : (flNames cs).Nodup)
    (hwf : flWf cs = true) :
    ∀ n q off sz, (n :: q, off, sz) ∈ withOffsets o (walkL cs) →
      ∃ c, mapGet (dir_children cs p o l).1 n = some c ∧
        jsonAt c q = some (fileDescOut off sz) := by
  cases cs with
  | fnil =>
    intro n q off sz h
    rw [show walkL .fnil = ([] : List (List String × Nat)) from rfl] at h
    simp [withOffsets] at h
  | fcons n0 c0 rest =>
    intro n q off sz hmem
    simp only [flWf, Bool.and_eq_true] at hwf
    rw [show flNames (.fcons n0 c0 rest) = n0 :: flNames rest from rfl,
      List.nodup_cons] at hnd
    rw [show walkL (.fcons n0 c0 rest) =
      (walk c0).map (fun e => (n0 :: e.1, e.2)) ++ walkL rest from rfl] at hmem
    rw [withOffsets_append] at hmem
    have hsz0 : sizesSum ((walk c0).map (fun e => (n0 :: e.1, e.2))) =
        wsum c0 := by
      have hcomp : ((fun e : List String × Nat => e.2) ∘
          fun e : List String × Nat => (n0 :: e.1, e.2)) =
          (fun e : List String × Nat => e.2) := by
        funext e
        rfl
      simp [sizesSum, wsum, List.map_map, hcomp]
    rw [hsz0, withOffsets_map_prepend] at hmem
    rcases List.mem_append.mp hmem with h1 | h2
    · obtain ⟨e, hemem, he⟩ := List.mem_map.mp h1
      have hn : n0 = n := by
        have := congrArg (fun x => x.1) he
        simpa using (List.head_eq_of_cons_eq (by simpa using this))
      have he1 : e.1 = q := by
        have := congrArg (fun x => x.1) he
        simpa using (List.tail_eq_of_cons_eq (by simpa using this))
      have he2 : e.2.1 = off := by
        have := congrArg (fun x => x.2.1) he
        simpa using this
      have he3 : e.2.2 = sz := by
        have := congrArg (fun x => x.2.2) he
        simpa using this
      refine ⟨(dir_to_value c0 (p ++ [n0]) o l).1, ?_, ?_⟩
      · rw [show (dir_children (.fcons n0 c0 rest) p o l).1 =
          JMap.mcons n0 (dir_to_value c0 (p ++ [n0]) o l).1
            (dir_children rest p (dir_to_value c0 (p ++ [n0]) o l).2.1
              (dir_to_value c0 (p ++ [n0]) o l).2.2).1 from rfl]
        simp [mapGet, hn]
      · have := dtv_offsets c0 (p ++ [n0]) o l hwf.1 e.1 e.2.1 e.2.2
          (by simpa using hemem)
        rw [he1, he2, he3] at this
        exact this
    · have hnames : n ∈ flNames rest := by
        obtain ⟨n', p', hq, hn'⟩ :=
          walkL_names rest (n :: q) sz (withOffsets_mem h2)
        injection hq with hh ht
        exact hh ▸ hn'
      have hne : ¬ n0 = n := fun h => hnd.1 (h ▸ hnames)
      have hX := (dtv_thread c0 (p ++ [n0]) o l).1
      rw [← hX] at h2
      obtain ⟨c, hget, hjson⟩ :=
        dtc_offsets rest p (dir_to_value c0 (p ++ [n0]) o l).2.1
          (dir_to_value c0 (p ++ [n0]) o l).2.2 hnd.2 hwf.2 n q off sz h2
      refine ⟨c, ?_, hjson⟩
      rw [show (dir_children (.fcons n0 c0 rest) p o l).1 =
        JMap.mcons n0 (dir_to_value c0 (p ++ [n0]) o l).1
          (dir_children rest p (dir_to_value c0 (p ++ [n0]) o l).2.1
            (dir_to_value c0 (p ++ [n0]) o l).2.2).1 from rfl]
      rw [show mapGet (JMap.mcons n0 (dir_to_value c0 (p ++ [n0]) o l).1
          (dir_children rest p (dir_to_value c0 (p ++ [n0]) o l).2.1
            (dir_to_value c0 (p ++ [n0]) o l).2.2).1) n =
        (if n0 = n then some (dir_to_value c0 (p ++ [n0]) o l).1
          else mapGet (dir_children rest p
            (dir_to_value c0 (p ++ [n0]) o l).2.1
            (dir_to_value c0 (p ++ [n0]) o l).2.2).1 n) from rfl]
      rw [if_neg hne]
      exact hget
end



theorem withOffsets_le : ∀ (l : List (List String × Nat)) (o : Nat)
    (e : List String × Nat × Nat), e ∈ withOffsets o l → o ≤ e.2.1
  | [], o, e, h => by simp [withOffsets] at h
  | (p, s) :: rest, o, e, h => by
    rw [show withOffsets o ((p, s) :: rest) =
      (p, o, s) :: withOffsets (o + s) rest from rfl] at h
    rcases List.mem_cons.mp h with h1 | h2
    · subst h1
      exact le_refl o
    · have := withOffsets_le rest (o + s) e h2
      omega

/-- When every entry has positive size, the running offsets are strictly
increasing (hence duplicate-free). -/
theorem withOffsets_pairwise : ∀ (l : List (List String × Nat)) (o : Nat),
    (∀ e ∈ l, 0 < e.2) →
    ((withOffsets o l).map (fun e => e.2.1)).Pairwise (· < ·)
  | [], o, _ => by simp [withOffsets]
  | (p, s) :: rest, o, hpos => by
    rw [show withOffsets o ((p, s) :: rest) =
      (p, o, s) :: withOffsets (o + s) rest from rfl]
    rw [List.map_cons, List.pairwise_cons]
    refine ⟨?_, withOffsets_pairwise rest (o + s)
      (fun e he => hpos e (List.mem_cons_of_mem _ he))⟩
    intro b hb
    obtain ⟨e, he, hbe⟩ := List.mem_map.mp hb
    have h1 := withOffsets_le rest (o + s) e he
    have h2 : 0 < s := hpos (p, s) (List.mem_cons_self _ _)
    show o < b
    omega

/-- `dir_to_asar_go` consumes the packing list in list order, appending
for each entry the `size` zero bytes followed by that entry's file
contents. -/
theorem dir_to_asar_go_order : ∀ (l : List (List String × Nat)) (fs : Fs),
    (∀ e ∈ l, (readFs fs e.1).isSome) →
    dir_to_asar_go l fs = .ok ((l.map (fun e =>
      List.replicate e.2 0 ++ (readFs fs e.1).getD [])).flatten)
  | [], fs, _ => rfl
  | (p, s) :: rest, fs, h => by
    obtain ⟨b, hb⟩ := Option.isSome_iff_exists.mp
      (h (p, s) (List.mem_cons_self _ _))
    have ih := dir_to_asar_go_order rest fs
      (fun e he => h e (List.mem_cons_of_mem _ he))
    have hb2 : readFs fs p = some b := hb
    simp [dir_to_asar_go, hb2, Bind.bind, Except.bind, ih,
      List.append_assoc]

/-- A successful File classification carries the queried name. -/
theorem lookahead_file_name {k : String} {item : JMap} {n : String}
    {off sz : Nat} (h : lookahead k item = .ok (.file n off sz)) : n = k := by
  unfold lookahead at h
  split at h
  · split at h
    · cases h
    · cases h
  · split at h
    · split at h
      · cases h
      · split at h
        · cases h
        · split at h
          · cases h
          · cases h
            rfl
    · split at h
      · cases h
      · cases h

/-- A successful Folder classification carries the queried name. -/
theorem lookahead_folder_name {k : String} {item : JMap} {n : String}
    {dir : JMap} (h : lookahead k item = .ok (.folder n dir)) : n = k := by
  unfold lookahead at h
  split at h
  · split at h
    · cases h
    · cases h
  · split at h
    · split at h
      · cases h
      · split at h
        · cases h
        · split at h
          · cases h
          · cases h
    · split at h
      · cases h
        rfl
      · cases h

/-- Unfolding a well-formed map entry. -/
theorem jmWf_cons {k : String} {v : J} {rest : JMap}
    (h : jmWf (.mcons k v rest) = true) :
    ¬ k = "" ∧ k ∉ jmKeys rest ∧ childWf k v = true ∧ jmWf rest = true := by
  rw [jmWf] at h
  simp only [Bool.and_eq_true, decide_eq_true_eq] at h
  exact ⟨h.1.1.1, h.1.1.2, h.1.2, h.2⟩

/-- Unfolding well-formedness of a single child. -/
theorem childWf_true {k : String} {v : J} (h : childWf k v = true) :
    ∃ item, v = J.obj item ∧
      ((∃ off sz, lookahead k item = .ok (.file k off sz)) ∨
       (∃ dir, lookahead k item = .ok (.folder k dir) ∧ jmWf dir = true)) := by
  cases v with
  | obj item =>
    refine ⟨item, rfl, ?_⟩
    simp only [childWf] at h
    split at h
    · rename_i n off sz hl
      exact Or.inl ⟨off, sz, (lookahead_file_name hl) ▸ hl⟩
    · rename_i n dir hl
      exact Or.inr ⟨dir, (lookahead_folder_name hl) ▸ hl, h⟩
    · cases h
    · cases h
  | null => simp [childWf] at h
  | bool b => simp [childWf] at h
  | num n => simp [childWf] at h
  | str s => simp [childWf] at h

theorem childNodes_file {k : String} {item : JMap} {n : String}
    {off sz : Nat} (hl : lookahead k item = .ok (.file n off sz))
    (base : List String) :
    childNodes k (.obj item) base = [(base ++ [k], Content.file n off sz)] := by
  rw [childNodes.eq_def]
  simp only []
  split
  · rename_i n' off' sz' hl'
    rw [hl] at hl'
    cases hl'
    rfl
  · rename_i n' dir' hl'
    rw [hl] at hl'
    cases hl'
  · rename_i c hnf hnd heq
    rw [hl] at heq
    cases heq
    exact absurd rfl (hnf n off sz)
  · rename_i e hl'
    rw [hl] at hl'
    cases hl'

theorem childNodes_folder {k : String} {item : JMap} {n : String}
    {dir : JMap} (hl : lookahead k item = .ok (.folder n dir))
    (base : List String) :
    childNodes k (.obj item) base =
      (base ++ [k], Content.folder n dir) :: nodesOfMap dir (base ++ [k]) := by
  rw [childNodes.eq_def]
  simp only []
  split
  · rename_i n' off' sz' hl'
    rw [hl] at hl'
    cases hl'
  · rename_i n' dir' hl'
    rw [hl] at hl'
    cases hl'
    rfl
  · rename_i c hnf hnd heq
    rw [hl] at heq
    cases heq
    exact absurd rfl (hnd n dir)
  · rename_i e hl'
    rw [hl] at hl'
    cases hl'

theorem childNodes_other {k : String} {item : JMap} {base : List String}
    (hf : ∀ n off sz, lookahead k item ≠ .ok (.file n off sz))
    (hd : ∀ n dir, lookahead k item ≠ .ok (.folder n dir)) :
    childNodes k (.obj item) base = [] := by
  rw [childNodes.eq_def]
  simp only []
  split
  · rename_i n off sz hl
    exact absurd hl (hf n off sz)
  · rename_i n dir hl
    exact absurd hl (hd n dir)
  · rfl
  · rfl

theorem childNodes_nonobj : ∀ (k : String) (v : J) (base : List String),
    (∀ item, v ≠ J.obj item) → childNodes k v base = []
  | k, .null, base, _ => by rw [childNodes.eq_def]
  | k, .bool b, base, _ => by rw [childNodes.eq_def]
  | k, .num n, base, _ => by rw [childNodes.eq_def]
  | k, .str s, base, _ => by rw [childNodes.eq_def]
  | k, .obj item, base, h => absurd rfl (h item)

theorem nodesOfMap_nil (base : List String) : nodesOfMap .mnil base = [] := by
  rw [nodesOfMap]

theorem nodesOfMap_cons (k : String) (v : J) (rest : JMap)
    (base : List String) :
    nodesOfMap (.mcons k v rest) base =
      childNodes k v base ++ nodesOfMap rest base := by
  rw [nodesOfMap]

mutual
/-- Every node contributed by the child `k` has a path of the form
`base ++ (k :: t)`. -/
theorem childNodes_shape : ∀ (k : String) (v : J) (base p : List String)
    (c : Content), (p, c) ∈ childNodes k v base →
    ∃ t, p = base ++ (k :: t)
  | k, .obj item, base, p, c, h => by
    rcases hl : lookahead k item with e | cc
    · rw [childNodes_other (by intro n off sz hx; rw [hl] at hx; cases hx)
        (by intro n dir hx; rw [hl] at hx; cases hx)] at h
      cases h
    · cases cc with
      | file n off sz =>
        rw [childNodes_file hl] at h
        have hp := congrArg Prod.fst (List.mem_singleton.mp h)
        exact ⟨[], by simpa using hp⟩
      | folder n dir =>
        rw [childNodes_folder hl] at h
        rcases List.mem_cons.mp h with h3 | h4
        · have hp := congrArg Prod.fst h3
          exact ⟨[], by simpa using hp⟩
        · obtain ⟨k2, t2, hp, _⟩ :=
            nodesOfMap_shape dir (base ++ [k]) p c h4
          exact ⟨k2 :: t2, by simp [hp]⟩
      | home d =>
        rw [childNodes_other (by intro n off sz hx; rw [hl] at hx; cases hx)
          (by intro n dir hx; rw [hl] at hx; cases hx)] at h
        cases h
      | list l =>
        rw [childNodes_other (by intro n off sz hx; rw [hl] at hx; cases hx)
          (by intro n dir hx; rw [hl] at hx; cases hx)] at h
        cases h
  | k, .null, base, p, c, h => by
    rw [childNodes_nonobj _ _ _ (by intro i hx; cases hx)] at h
    cases h
  | k, .bool b, base, p, c, h => by
    rw [childNodes_nonobj _ _ _ (by intro i hx; cases hx)] at h
    cases h
  | k, .num n, base, p, c, h => by
    rw [childNodes_nonobj _ _ _ (by intro i hx; cases hx)] at h
    cases h
  | k, .str s, base, p, c, h => by
    rw [childNodes_nonobj _ _ _ (by intro i hx; cases hx)] at h
    cases h
termination_by k v _ _ _ _ => jsize v
decreasing_by
  have := lookahead_cmeasure hl
  simp only [cmeasure, msize, jsize] at *
  omega

/-- Every node path extends the base by at least one component, whose head
is one of the map's keys. -/
theorem nodesOfMap_shape : ∀ (m : JMap) (base p : List String)
    (c : Content), (p, c) ∈ nodesOfMap m base →
    ∃ k t, p = base ++ (k :: t) ∧ k ∈ jmKeys m
  | .mnil, base, p, c, h => by
    rw [nodesOfMap_nil] at h
    cases h
  | .mcons k v rest, base, p, c, h => by
    rw [nodesOfMap_cons] at h
    rcases List.mem_append.mp h with h1 | h2
    · obtain ⟨t, hp⟩ := childNodes_shape k v base p c h1
      exact ⟨k, t, hp, by simp [jmKeys]⟩
    · obtain ⟨k2, t2, hp, hk2⟩ := nodesOfMap_shape rest base p c h2
      exact ⟨k2, t2, hp, by simp [jmKeys, hk2]⟩
termination_by m _ _ _ => msize m
decreasing_by
  all_goals
    simp only [msize]
    omega
end

theorem isPrefixOf_append_self (b : List String) (k : String) :
    (b ++ [k]).isPrefixOf (b ++ [k]) = true := by
  rw [List.isPrefixOf_iff_prefix]

theorem isPrefixOf_append_extend (b : List String) (k : String)
    (t : List String) : (b ++ [k]).isPrefixOf (b ++ (k :: t)) = true := by
  rw [List.isPrefixOf_iff_prefix,
    show b ++ (k :: t) = (b ++ [k]) ++ t by simp]
  exact List.prefix_append _ _

theorem isPrefixOf_append_ne (b : List String) {k k2 : String}
    (t : List String) (hne : k ≠ k2) :
    (b ++ [k]).isPrefixOf (b ++ (k2 :: t)) = false := by
  rw [Bool.eq_false_iff]
  intro h
  rw [List.isPrefixOf_iff_prefix, List.prefix_append_right_inj,
    List.cons_prefix_cons] at h
  exact hne h.1

theorem ne_append_cons (b : List String) (k2 : String) (t2 : List String) :
    ¬ b = b ++ (k2 :: t2) := by
  intro h
  have h2 : b ++ [] = b ++ (k2 :: t2) := by
    rw [List.append_nil]
    exact h
  cases List.append_cancel_left h2

theorem find_loop_nil (path curr : List String) :
    find_loop .mnil path curr = some none := by
  rw [find_loop.eq_def]

theorem find_loop_cons_skip {k : String} {curr path : List String}
    (v : J) (rest : JMap)
    (hp : (curr ++ [k]).isPrefixOf path = false) :
    find_loop (.mcons k v rest) path curr = find_loop rest path curr := by
  rw [find_loop.eq_def]
  simp only []
  rw [if_neg (by simp [hp])]

theorem find_loop_cons_ok {k : String} {curr path : List String}
    {item : JMap} {c : Content} (rest : JMap)
    (hp : (curr ++ [k]).isPrefixOf path = true)
    (hl : lookahead k item = .ok c) :
    find_loop (.mcons k (.obj item) rest) path curr =
      find_aux c path curr := by
  rw [find_loop.eq_def]
  simp only []
  rw [if_pos hp]
  split
  · rename_i c' hl'
    rw [hl] at hl'
    cases hl'
    rfl
  · rename_i e hl'
    rw [hl] at hl'
    cases hl'

/-- Fueled form of `find_loop_found`; the fuel bounds `msize`. -/
theorem find_loop_found_aux : ∀ (n : Nat) (m : JMap)
    (base path : List String) (c : Content), msize m ≤ n →
    jmWf m = true → (path, c) ∈ nodesOfMap m base →
    find_loop m path base = some (some c)
  | _, .mnil, base, path, c, _, _, hmem => by
    rw [nodesOfMap_nil] at hmem
    cases hmem
  | 0, .mcons k v rest, base, path, c, hn, _, _ => by
    simp only [msize] at hn
    omega
  | Nat.succ n, .mcons k v rest, base, path, c, hn, hwf, hmem => by
    obtain ⟨hk0, hknotin, hcw, hwfrest⟩ := jmWf_cons hwf
    obtain ⟨item, hv, hclass⟩ := childWf_true hcw
    subst hv
    have hnrest : msize rest ≤ n := by
      simp only [msize] at hn
      omega
    rw [nodesOfMap_cons] at hmem
    rcases List.mem_append.mp hmem with h1 | h2
    · rcases hclass with ⟨off, sz, hl⟩ | ⟨dir, hl, hwfdir⟩
      · rw [childNodes_file hl] at h1
        have hpq := (Prod.mk.injEq _ _ _ _).mp (List.mem_singleton.mp h1)
        rw [find_loop_cons_ok rest
          (by rw [hpq.1]; exact isPrefixOf_append_self base k) hl]
        rw [find_aux.eq_def]
        simp only []
        rw [if_pos hpq.1, hpq.2]
      · have hndir : msize dir ≤ n := by
          have := lookahead_cmeasure hl
          simp only [cmeasure, msize, jsize] at *
          omega
        rw [childNodes_folder hl] at h1
        rcases List.mem_cons.mp h1 with h3 | h4
        · have hpq := (Prod.mk.injEq _ _ _ _).mp h3
          rw [find_loop_cons_ok rest
            (by rw [hpq.1]; exact isPrefixOf_append_self base k) hl]
          rw [find_aux.eq_def]
          simp only []
          rw [if_pos hpq.1.symm, hpq.2]
        · obtain ⟨k2, t2, hp, _⟩ :=
            nodesOfMap_shape dir (base ++ [k]) path c h4
          rw [find_loop_cons_ok rest
            (by
              rw [hp]
              simp only [List.append_assoc, List.singleton_append]
              exact isPrefixOf_append_extend base k _) hl]
          rw [find_aux.eq_def]
          simp only []
          rw [if_neg (by rw [hp]; exact ne_append_cons _ _ _)]
          exact find_loop_found_aux n dir (base ++ [k]) path c hndir hwfdir h4
    · obtain ⟨k2, t2, hp, hk2⟩ := nodesOfMap_shape rest base path c h2
      have hne : k ≠ k2 := fun he => hknotin (he ▸ hk2)
      rw [find_loop_cons_skip (.obj item) rest
        (by rw [hp]; exact isPrefixOf_append_ne base t2 hne)]
      exact find_loop_found_aux n rest base path c hnrest hwfrest h2

/-- `find_loop` returns every node of a well-formed map, fully
classified. -/
theorem find_loop_found (m : JMap) (base path : List String) (c : Content)
    (hwf : jmWf m = true) (hmem : (path, c) ∈ nodesOfMap m base) :
    find_loop m path base = some (some c) :=
  find_loop_found_aux (msize m) m base path c (le_refl _) hwf hmem

/-- Fueled form of `find_loop_notfound`. -/
theorem find_loop_notfound_aux : ∀ (n : Nat) (m : JMap)
    (base path : List String), msize m ≤ n → jmWf m = true →
    ¬ path = base → (∀ c, (path, c) ∉ nodesOfMap m base) →
    find_loop m path base = some none
  | _, .mnil, base, path, _, _, _, _ => find_loop_nil path base
  | 0, .mcons k v rest, base, path, hn, _, _, _ => by
    simp only [msize] at hn
    omega
  | Nat.succ n, .mcons k v rest, base, path, hn, hwf, hnb, hnot => by
    obtain ⟨hk0, hknotin, hcw, hwfrest⟩ := jmWf_cons hwf
    obtain ⟨item, hv, hclass⟩ := childWf_true hcw
    subst hv
    have hnrest : msize rest ≤ n := by
      simp only [msize] at hn
      omega
    by_cases hp : (base ++ [k]).isPrefixOf path = true
    · rcases hclass with ⟨off, sz, hl⟩ | ⟨dir, hl, hwfdir⟩
      · rw [find_loop_cons_ok rest hp hl]
        rw [find_aux.eq_def]
        simp only []
        rw [if_neg ?hnefile]
        case hnefile =>
          intro he
          exact hnot (.file k off sz) (by
            rw [nodesOfMap_cons, childNodes_file hl]
            exact List.mem_append.mpr (Or.inl (by
              rw [he]
              exact List.mem_singleton.mpr rfl)))
      · have hndir : msize dir ≤ n := by
          have := lookahead_cmeasure hl
          simp only [cmeasure, msize, jsize] at *
          omega
        have hnefolder : ¬ base ++ [k] = path := by
          intro he
          exact hnot (.folder k dir) (by
            rw [nodesOfMap_cons, childNodes_folder hl]
            exact List.mem_append.mpr (Or.inl (by
              rw [← he]
              exact List.mem_cons_self _ _)))
        rw [find_loop_cons_ok rest hp hl]
        rw [find_aux.eq_def]
        simp only []
        rw [if_neg hnefolder]
        refine find_loop_notfound_aux n dir (base ++ [k]) path hndir hwfdir
          (fun he => hnefolder he.symm) ?_
        intro c hc
        exact hnot c (by
          rw [nodesOfMap_cons, childNodes_folder hl]
          exact List.mem_append.mpr (Or.inl (List.mem_cons_of_mem _ hc)))
    · rw [find_loop_cons_skip (.obj item) rest (Bool.eq_false_iff.mpr hp)]
      refine find_loop_notfound_aux n rest base path hnrest hwfrest hnb ?_
      intro c hc
      exact hnot c (by
        rw [nodesOfMap_cons]
        exact List.mem_append.mpr (Or.inr hc))

/-- On a well-formed map, `find_loop` returns not-found for every path
that is not the path of a node (and is not the base itself). -/
theorem find_loop_notfound (m : JMap) (base path : List String)
    (hwf : jmWf m = true) (hnb : ¬ path = base)
    (hnot : ∀ c, (path, c) ∉ nodesOfMap m base) :
    find_loop m path base = some none :=
  find_loop_notfound_aux (msize m) m base path (le_refl _) hwf hnb hnot

theorem find_aux_home_loop (m : JMap) (path : List String)
    (hne : ¬ path = []) :
    find_aux (.home m) path [] = find_loop m path [] := by
  rw [find_aux.eq_def]
  simp only []
  rw [if_neg (by simp [List.isEmpty_iff, hne])]

/-- The fixture tree is well-formed. -/
theorem fixture_jmWf : jmWf fixtureMap = true := by
  simp [jmWf, childWf, jmKeys, fixtureMap, folder1Map, JMap.ofList,
    fileDescIn, lookahead, mapGet, parse_u64, MAX_SAFE_INTEGER]

/-- The nodes of the fixture tree. -/
theorem fixture_nodes : nodesOfMap fixtureMap [] =
    [(["folder1"], .folder "folder1" folder1Map),
     (["folder1", "script.py"], .file "script.py" 0 55),
     (["folder1", "test_image.jpg"], .file "test_image.jpg" 55 29968),
     (["test1.txt"], .file "test1.txt" 30023 21)] := by
  simp [nodesOfMap, childNodes, fixtureMap, folder1Map, JMap.ofList,
    fileDescIn, lookahead, mapGet, parse_u64, MAX_SAFE_INTEGER]

/-- Fueled form of `nodesOfMap_nodup`. -/
theorem nodesOfMap_nodup_aux : ∀ (n : Nat) (m : JMap) (base : List String),
    msize m ≤ n → jmWf m = true →
    ((nodesOfMap m base).map (fun e => e.1)).Nodup
  | _, .mnil, base, _, _ => by
    rw [nodesOfMap_nil]
    simp
  | 0, .mcons k v rest, _, hn, _ => by
    simp only [msize] at hn
    omega
  | Nat.succ n, .mcons k v rest, base, hn, hwf => by
    obtain ⟨hk0, hknotin, hcw, hwfrest⟩ := jmWf_cons hwf
    obtain ⟨item, hv, hclass⟩ := childWf_true hcw
    subst hv
    have hnrest : msize rest ≤ n := by
      simp only [msize] at hn
      omega
    rw [nodesOfMap_cons, List.map_append, List.nodup_append]
    refine ⟨?_, nodesOfMap_nodup_aux n rest base hnrest hwfrest, ?_⟩
    · rcases hclass with ⟨off, sz, hl⟩ | ⟨dir, hl, hwfdir⟩
      · rw [childNodes_file hl]
        simp
      · have hndir : msize dir ≤ n := by
          have := lookahead_cmeasure hl
          simp only [cmeasure, msize, jsize] at *
          omega
        rw [childNodes_folder hl]
        simp only [List.map_cons]
        rw [List.nodup_cons]
        refine ⟨?_, nodesOfMap_nodup_aux n dir (base ++ [k]) hndir hwfdir⟩
        intro hmem
        obtain ⟨⟨p, c⟩, hpc, hfst⟩ := List.mem_map.mp hmem
        obtain ⟨k2, t2, hp, _⟩ := nodesOfMap_shape dir (base ++ [k]) p c hpc
        simp only [] at hfst
        rw [hp] at hfst
        exact ne_append_cons _ k2 t2 hfst.symm
    · intro a haC haR
      obtain ⟨⟨p1, c1⟩, hpc1, h1⟩ := List.mem_map.mp haC
      obtain ⟨⟨p2, c2⟩, hpc2, h2⟩ := List.mem_map.mp haR
      obtain ⟨t1, hp1⟩ := childNodes_shape k _ base p1 c1 hpc1
      obtain ⟨k2, t2, hp2, hk2⟩ := nodesOfMap_shape rest base p2 c2 hpc2
      simp only [] at h1 h2
      have hpp : p1 = p2 := by rw [h1, h2]
      have hkk : k :: t1 = k2 :: t2 :=
        List.append_cancel_left (by rw [← hp1, ← hp2]; exact hpp)
      injection hkk with hk _
      exact hknotin (hk ▸ hk2)

/-- On a well-formed map the node paths are pairwise distinct: each node
is enumerated exactly once. -/
theorem nodesOfMap_nodup (m : JMap) (base : List String)
    (hwf : jmWf m = true) :
    ((nodesOfMap m base).map (fun e => e.1)).Nodup :=
  nodesOfMap_nodup_aux (msize m) m base (le_refl _) hwf

theorem paths_aux_file (k : String) (off sz : Nat) (path : List String) :
    paths_to_vec_aux (.file k off sz) path = .ok [path ++ [k]] := by
  rw [paths_to_vec_aux.eq_def]

theorem paths_aux_folder (k : String) (dir : JMap) (path : List String) :
    paths_to_vec_aux (.folder k dir) path =
      (do
        let sub ← paths_loop dir (path ++ [k])
        Except.ok ((path ++ [k]) :: sub)) := by
  rw [paths_to_vec_aux.eq_def]

theorem paths_loop_nil (path : List String) :
    paths_loop .mnil path = .ok [] := by
  rw [paths_loop.eq_def]

theorem paths_loop_cons_ok {k : String} {item : JMap} {c : Content}
    (rest : JMap) (path : List String) (hl : lookahead k item = .ok c) :
    paths_loop (.mcons k (.obj item) rest) path =
      (do
        let ps ← paths_to_vec_aux c path
        let rest' ← paths_loop rest path
        Except.ok (ps ++ rest')) := by
  rw [paths_loop.eq_def]
  simp only []
  split
  · rename_i c' hl'
    rw [hl] at hl'
    cases hl'
    rfl
  · rename_i e hl'
    rw [hl] at hl'
    cases hl'

theorem home_paths_nil : home_paths .mnil = .ok [] := by
  rw [home_paths.eq_def]

theorem home_paths_cons_ok {k : String} {item : JMap} {c : Content}
    (rest : JMap) (hl : lookahead k item = .ok c) :
    home_paths (.mcons k (.obj item) rest) =
      (do
        let ps ← paths_to_vec_aux c []
        let rest' ← home_paths rest
        Except.ok (ps ++ rest')) := by
  rw [home_paths.eq_def]
  simp only []
  split
  · rename_i c' hl'
    rw [hl] at hl'
    cases hl'
    rfl
  · rename_i e hl'
    rw [hl] at hl'
    cases hl'

/-- Fueled form of `paths_loop_nodes`. -/
theorem paths_loop_nodes_aux : ∀ (n : Nat) (m : JMap) (b : List String),
    msize m ≤ n → jmWf m = true →
    paths_loop m b = .ok ((nodesOfMap m b).map (fun e => e.1))
  | _, .mnil, b, _, _ => by
    rw [paths_loop_nil, nodesOfMap_nil]
    rfl
  | 0, .mcons k v rest, _, hn, _ => by
    simp only [msize] at hn
    omega
  | Nat.succ n, .mcons k v rest, b, hn, hwf => by
    obtain ⟨hk0, hknotin, hcw, hwfrest⟩ := jmWf_cons hwf
    obtain ⟨item, hv, hclass⟩ := childWf_true hcw
    subst hv
    have hnrest : msize rest ≤ n := by
      simp only [msize] at hn
      omega
    rcases hclass with ⟨off, sz, hl⟩ | ⟨dir, hl, hwfdir⟩
    · rw [paths_loop_cons_ok rest b hl, paths_aux_file,
        paths_loop_nodes_aux n rest b hnrest hwfrest,
        nodesOfMap_cons, childNodes_file hl]
      simp [Bind.bind, Except.bind]
    · have hndir : msize dir ≤ n := by
        have := lookahead_cmeasure hl
        simp only [cmeasure, msize, jsize] at *
        omega
      rw [paths_loop_cons_ok rest b hl, paths_aux_folder,
        paths_loop_nodes_aux n dir (b ++ [k]) hndir hwfdir,
        paths_loop_nodes_aux n rest b hnrest hwfrest,
        nodesOfMap_cons, childNodes_folder hl]
      simp [Bind.bind, Except.bind]

/-- `paths_loop` emits exactly the node paths of a well-formed map, in
node order. -/
theorem paths_loop_nodes (m : JMap) (b : List String)
    (hwf : jmWf m = true) :
    paths_loop m b = .ok ((nodesOfMap m b).map (fun e => e.1)) :=
  paths_loop_nodes_aux (msize m) m b (le_refl _) hwf

/-- The root loop of `paths_to_vec` emits exactly the node paths of a
well-formed tree, in node order. -/
theorem home_paths_nodes : ∀ (m : JMap), jmWf m = true →
    home_paths m = .ok ((nodesOfMap m []).map (fun e => e.1))
  | .mnil, _ => by
    rw [home_paths_nil, nodesOfMap_nil]
    rfl
  | .mcons k v rest, hwf => by
    obtain ⟨hk0, hknotin, hcw, hwfrest⟩ := jmWf_cons hwf
    obtain ⟨item, hv, hclass⟩ := childWf_true hcw
    subst hv
    rcases hclass with ⟨off, sz, hl⟩ | ⟨dir, hl, hwfdir⟩
    · rw [home_paths_cons_ok rest hl, paths_aux_file,
        home_paths_nodes rest hwfrest,
        nodesOfMap_cons, childNodes_file hl]
      simp [Bind.bind, Except.bind]
    · rw [home_paths_cons_ok rest hl, paths_aux_folder,
        paths_loop_nodes dir ([] ++ [k]) hwfdir,
        home_paths_nodes rest hwfrest,
        nodesOfMap_cons, childNodes_folder hl]
      simp [Bind.bind, Except.bind]

/-! ### Claim theorems -/

/-- Claim C4 (confirmed): for every header value whose UTF-8 serialization
has length `payloadLen` (with the envelope representable in 32 bits),
packing writes, in order, the four little-endian u32 fields `4`,
`payloadLen + 8`, `payloadLen + 4`, `payloadLen` at byte offsets 0, 4, 8,
12, followed immediately by the `payloadLen` JSON bytes, with no padding
before the data region. -/
theorem pack_header_encoding (hb d : List Nat) (c : Content) (fs : Fs)
    (hlen : hb.length + 16 < 2 ^ 32)
    (hdata : dir_to_asar c fs = .ok d) :
    pack ⟨c, hb.length + 16, some hb⟩ fs =
      .ok (u32le 4 ++ u32le (hb.length + 8) ++ u32le (hb.length + 4) ++
        u32le hb.length ++ hb ++ d) ∧
    ∀ out, pack ⟨c, hb.length + 16, some hb⟩ fs = .ok out →
      read_u32_at out 0 = some 4 ∧
      read_u32_at out 4 = some (hb.length + 8) ∧
      read_u32_at out 8 = some (hb.length + 4) ∧
      read_u32_at out 12 = some hb.length ∧
      (out.drop 16).take hb.length = hb ∧
      out.drop (16 + hb.length) = d := by
  have hpack : pack ⟨c, hb.length + 16, some hb⟩ fs =
      .ok (u32le 4 ++ u32le (hb.length + 8) ++ u32le (hb.length + 4) ++
        u32le hb.length ++ hb ++ d) := by
    have e8 : (hb.length + 16 - 8) % 2 ^ 32 = hb.length + 8 := by omega
    have e12 : (hb.length + 16 - 12) % 2 ^ 32 = hb.length + 4 := by omega
    have e16 : (hb.length + 16 - 16) % 2 ^ 32 = hb.length := by omega
    unfold pack
    simp only [hdata, Bind.bind, Except.bind]
    rw [e8, e12, e16]
  refine ⟨hpack, ?_⟩
  intro out hout
  rw [hpack] at hout
  cases hout
  obtain ⟨f0, f4, f8, f12, fdrop⟩ :=
    envelope_fields 4 (hb.length + 8) (hb.length + 4) hb.length hb d
  have m4 : (4 : Nat) % 2 ^ 32 = 4 := by omega
  have m8 : (hb.length + 8) % 2 ^ 32 = hb.length + 8 := by omega
  have m12 : (hb.length + 4) % 2 ^ 32 = hb.length + 4 := by omega
  have m16 : hb.length % 2 ^ 32 = hb.length := by omega
  rw [m4] at f0
  rw [m8] at f4
  rw [m12] at f8
  rw [m16] at f12
  refine ⟨f0, f4, f8, f12, ?_, ?_⟩
  · rw [fdrop, List.take_left]
  · rw [show 16 + hb.length = 16 + hb.length from rfl, ← List.drop_drop,
      fdrop, List.drop_left]

/-- Witness for `pack_header_encoding`: a two-byte header payload packed in
front of an empty packing list. -/
theorem pack_header_encoding_witness :
    pack ⟨Content.list [], [123, 125].length + 16, some [123, 125]⟩
        (.dir .fnil) =
      .ok (u32le 4 ++ u32le ([123, 125].length + 8) ++
        u32le ([123, 125].length + 4) ++ u32le [123, 125].length ++
        [123, 125] ++ []) :=
  (pack_header_encoding [123, 125] [] (Content.list []) (.dir .fnil)
    (by decide) rfl).1

/-- Claim C5 as stated is false: decoding derives `start` from the u32 at
byte offset 8 (plus 12), not from `16 + payloadLen`.  On an archive whose
offset-8 field is 100 while its offset-12 field (`payloadLen`) is 2,
decoding succeeds and returns `start = 112`, not `16 + 2 = 18`. -/
theorem get_asar_header_start_counterexample :
    get_asar_header (u32le 4 ++ u32le 999 ++ u32le 100 ++ u32le 2 ++
        [123, 125]) =
      some ([123, 125], 112) ∧
    read_u32_at (u32le 4 ++ u32le 999 ++ u32le 100 ++ u32le 2 ++
        [123, 125]) 12 = some 2 ∧
    (112 : Nat) ≠ 16 + 2 := by
  refine ⟨by decide, by decide, by decide⟩

/-- Claim C5, amended: the start address returned by header decoding equals
the little-endian u32 at byte offset 8 plus 12; whenever that field holds
`payloadLen + 4` — as the format prescribes — the start equals
`16 + payloadLen`, where `payloadLen` (the u32 at offset 12) is the exact
byte length of the JSON header text read starting at offset 16. -/
theorem get_asar_header_start (bytes jb : List Nat) (s : Nat)
    (h : get_asar_header bytes = some (jb, s)) :
    (∃ f8, read_u32_at bytes 8 = some f8 ∧ s = f8 + 12) ∧
    ∀ len, read_u32_at bytes 12 = some len →
      jb.length = len ∧
      (read_u32_at bytes 8 = some (len + 4) → s = 16 + len) := by
  unfold get_asar_header at h
  split at h
  · cases h
  · rename_i len h12
    split at h
    · cases h
    · rename_i jb0 hread
      split at h
      · cases h
      · rename_i f8 h8
        cases h
        refine ⟨⟨f8, h8, by omega⟩, ?_⟩
        intro len' h12'
        rw [h12] at h12'
        cases h12'
        refine ⟨read_exact_at_length hread, ?_⟩
        intro h8'
        rw [h8] at h8'
        cases h8'
        omega

/-- Witness for `get_asar_header_start`: a well-formed two-byte-payload
archive decodes with `start = 18 = 16 + 2`. -/
theorem get_asar_header_start_witness :
    (∃ f8, read_u32_at (u32le 4 ++ u32le 10 ++ u32le 6 ++ u32le 2 ++
        [123, 125]) 8 = some f8 ∧ (18 : Nat) = f8 + 12) ∧
    ∀ len, read_u32_at (u32le 4 ++ u32le 10 ++ u32le 6 ++ u32le 2 ++
        [123, 125]) 12 = some len →
      ([123, 125] : List Nat).length = len ∧
      (read_u32_at (u32le 4 ++ u32le 10 ++ u32le 6 ++ u32le 2 ++
          [123, 125]) 8 = some (len + 4) → (18 : Nat) = 16 + len) :=
  get_asar_header_start
    (u32le 4 ++ u32le 10 ++ u32le 6 ++ u32le 2 ++ [123, 125])
    [123, 125] 18 (by decide)

/-- Claim C7 (confirmed): for every named file descriptor with a parseable
offset, a `size` of exactly `2 ^ 53 - 1` classifies successfully as a File
of that size, while a `size` of `2 ^ 53` fails with a header-parse error
whose message names the offending entity. -/
theorem lookahead_size_ceiling (name offStr : String) (off : Nat)
    (hname : name ≠ "") (hoff : parse_u64 offStr = some off) :
    lookahead name (JMap.ofList
        [("offset", .str offStr), ("size", .num (some (2 ^ 53 - 1)))]) =
      .ok (.file name off (2 ^ 53 - 1)) ∧
    lookahead name (JMap.ofList
        [("offset", .str offStr), ("size", .num (some (2 ^ 53)))]) =
      .error (.ParseHeaderError
        ("size of " ++ name ++ " is greater than MAX_SAFE_INTEGER")) := by
  constructor
  · simp [lookahead, hname, mapGet, JMap.ofList, hoff, MAX_SAFE_INTEGER]
  · simp [lookahead, hname, mapGet, JMap.ofList, hoff, MAX_SAFE_INTEGER]

/-- Witness for `lookahead_size_ceiling`: entity `f` with offset string
`"0"`. -/
theorem lookahead_size_ceiling_witness :
    lookahead "f" (JMap.ofList
        [("offset", .str "0"), ("size", .num (some (2 ^ 53 - 1)))]) =
      .ok (.file "f" 0 (2 ^ 53 - 1)) ∧
    lookahead "f" (JMap.ofList
        [("offset", .str "0"), ("size", .num (some (2 ^ 53)))]) =
      .error (.ParseHeaderError
        ("size of " ++ "f" ++ " is greater than MAX_SAFE_INTEGER")) :=
  lookahead_size_ceiling "f" "0" 0 (by decide) (by decide)

/-- Claim C8 as stated is false: on a tree holding a malformed descriptor
whose key matches the requested path, `find` panics (the
`lookahead(..).unwrap()` in `find_aux`, modelled as the outer `none`)
instead of returning not-found, even though the path names no node. -/
theorem find_path_lookup_counterexample :
    find (.home (.mcons "bad" (.obj .mnil) .mnil)) ["bad"] = none ∧
    nodesOfMap (.mcons "bad" (.obj .mnil) .mnil) [] = [] ∧
    (none : Option (Option Content)) ≠ some none := by
  refine ⟨?_, ?_, by simp⟩
  · simp [find, find_aux, find_loop, lookahead, mapGet, List.isPrefixOf]
  · simp [nodesOfMap, childNodes, lookahead, mapGet]

/-- Claim C8, amended: on every tree, `find` with the empty path returns
the Root node itself.  On every well-formed tree (distinct, non-empty
sibling keys; every descriptor classifying) `find` with a path that is
the path of no node returns not-found, and `find` with the path of a node
returns that node fully classified — for a File, with the offset and size
exactly as encoded in the header (`nodesOfMap` enumerates the tree's
nodes with exactly the classification `lookahead` decodes).  On a tree
with a malformed descriptor whose key matches the path, `find` panics
instead of returning not-found. -/
theorem find_path_lookup :
    (∀ m : JMap, find (.home m) [] = some (some (.home m))) ∧
    (∀ (m : JMap) (path : List String), jmWf m = true → path ≠ [] →
      (∀ c, (path, c) ∉ nodesOfMap m []) →
      find (.home m) path = some none) ∧
    (∀ (m : JMap) (path : List String) (c : Content), jmWf m = true →
      (path, c) ∈ nodesOfMap m [] →
      find (.home m) path = some (some c)) := by
  refine ⟨fun m => by simp [find, find_aux], ?_, ?_⟩
  · intro m path hwf hne hnot
    rw [find, find_aux_home_loop m path hne]
    exact find_loop_notfound m [] path hwf hne hnot
  · intro m path c hwf hmem
    obtain ⟨k, t, hp, _⟩ := nodesOfMap_shape m [] path c hmem
    have hne : ¬ path = [] := by
      rw [hp]
      simp
    rw [find, find_aux_home_loop m path hne]
    exact find_loop_found m [] path c hwf hmem

/-- Witness for `find_path_lookup`: on the fixture tree the empty path
returns the Root, a path naming no node returns not-found, and node paths
return their classified nodes with the encoded offsets and sizes. -/
theorem find_path_lookup_witness :
    find (.home fixtureMap) [] = some (some (.home fixtureMap)) ∧
    find (.home fixtureMap) ["does", "not", "exist"] = some none ∧
    find (.home fixtureMap) ["test1.txt"] =
      some (some (.file "test1.txt" 30023 21)) ∧
    find (.home fixtureMap) ["folder1", "test_image.jpg"] =
      some (some (.file "test_image.jpg" 55 29968)) ∧
    find (.home fixtureMap) ["folder1"] =
      some (some (.folder "folder1" folder1Map)) := by
  refine ⟨find_path_lookup.1 fixtureMap, ?_, ?_, ?_, ?_⟩
  · refine find_path_lookup.2.1 fixtureMap ["does", "not", "exist"]
      fixture_jmWf (by decide) ?_
    intro c hc
    rw [fixture_nodes] at hc
    simp at hc
  · exact find_path_lookup.2.2 fixtureMap ["test1.txt"] _ fixture_jmWf
      (by rw [fixture_nodes]; simp)
  · exact find_path_lookup.2.2 fixtureMap ["folder1", "test_image.jpg"] _
      fixture_jmWf (by rw [fixture_nodes]; simp)
  · exact find_path_lookup.2.2 fixtureMap ["folder1"] _ fixture_jmWf
      (by rw [fixture_nodes]; simp)

/-- Claim C9 (confirmed): whenever `find` returns normally, `get_file`
yields the file's bytes exactly when the path resolves to a File, the
archive re-opens and the `size`-byte read at `start + offset` succeeds;
every other outcome — directory source, path not found, path resolving to
a Folder or the Root, open failure, short read — yields `none` rather than
an error (the return type has no error case). -/
theorem get_file_degrade (c : Content) (start : Nat)
    (archive : Option (List Nat)) (path : List String) :
    (∀ srcIsDir, srcIsDir = true →
      get_file srcIsDir c start archive path = some none) ∧
    (find c path = some none →
      get_file false c start archive path = some none) ∧
    (∀ n d, find c path = some (some (.folder n d)) →
      get_file false c start archive path = some none) ∧
    (∀ d, find c path = some (some (.home d)) →
      get_file false c start archive path = some none) ∧
    (∀ n off sz, find c path = some (some (.file n off sz)) →
      archive = none →
      get_file false c start archive path = some none) ∧
    (∀ n off sz bytes, find c path = some (some (.file n off sz)) →
      archive = some bytes →
      read_exact_at bytes (start + off) sz = none →
      get_file false c start archive path = some none) ∧
    (∀ n off sz bytes v, find c path = some (some (.file n off sz)) →
      archive = some bytes →
      read_exact_at bytes (start + off) sz = some v →
      get_file false c start archive path = some (some v)) := by
  refine ⟨?_, ?_, ?_, ?_, ?_, ?_, ?_⟩
  · intro srcIsDir h
    subst h
    simp [get_file]
  · intro h
    simp [get_file, h]
  · intro n d h
    simp [get_file, h]
  · intro d h
    simp [get_file, h]
  · intro n off sz h ha
    subst ha
    simp [get_file, h]
  · intro n off sz bytes h ha hr
    subst ha
    simp [get_file, h, hr]
  · intro n off sz bytes v h ha hr
    subst ha
    simp [get_file, h, hr]

/-- Witness for `get_file_degrade`: on the fixture archive (with a data
region long enough for `test1.txt`), reading `test1.txt` returns its 21
bytes and reading the folder `folder1` returns no data. -/
theorem get_file_degrade_witness :
    get_file false fixtureHome 0 (some (List.replicate 30100 7))
      ["test1.txt"] = some (some (List.replicate 21 7)) ∧
    get_file false fixtureHome 0 (some (List.replicate 30100 7))
      ["folder1"] = some none ∧
    get_file true fixtureHome 0 (some (List.replicate 30100 7))
      ["test1.txt"] = some none := by
  refine ⟨?_, ?_, ?_⟩
  · refine (get_file_degrade fixtureHome 0 (some (List.replicate 30100 7))
      ["test1.txt"]).2.2.2.2.2.2 "test1.txt" 30023 21 (List.replicate 30100 7)
      (List.replicate 21 7) ?_ rfl ?_
    · exact find_fixture_test1
    · show read_exact_at (List.replicate 30100 7) (0 + 30023) 21 =
        some (List.replicate 21 7)
      have h1 : (0 + 30023) + 21 ≤ (List.replicate 30100 (7 : Nat)).length := by
        rw [List.length_replicate]
        omega
      rw [read_exact_at, if_pos h1, List.drop_replicate, List.take_replicate]
      norm_num
  · exact (get_file_degrade fixtureHome 0 (some (List.replicate 30100 7))
      ["folder1"]).2.2.1 "folder1" folder1Map find_fixture_folder1
  · exact (get_file_degrade fixtureHome 0 (some (List.replicate 30100 7))
      ["test1.txt"]).1 true rfl

/-- Claim C6 as stated is false: on a descriptor with a number `size`, a
non-decimal string `offset` and a `files` object, the claim's rule yields
Folder, but `lookahead` yields a parse error (whose message, coming from
Rust's `ParseIntError`, does not name the entity). -/
theorem lookahead_classification_counterexample :
    c6SpecClassify cxDesc = .folderC ∧
    lookahead "x" cxDesc = .error (.ParseHeaderError "ParseIntError") := by
  refine ⟨by decide, by rfl⟩

/-- Claim C6, amended: a named descriptor is classified as a File iff it
carries a string `offset` parsing as a `u64` and a number `size` that is a
non-negative integer at most `2 ^ 53 - 1`; when the typed shape (string
`offset`, number `size`) is present but one of those validations fails,
classification is a parse error even if a `files` object is present;
only when the typed shape is absent is the descriptor classified as a
Folder iff it carries a `files` object, and a descriptor matching neither
shape is a parse error naming the entity.  The unnamed top-level object is
classified as Root iff it carries a `files` object. -/
theorem lookahead_classification (name : String) (item : JMap)
    (hname : name ≠ "") :
    ((∃ off sz, lookahead name item = .ok (.file name off sz)) ↔
      (∃ s sz off, mapGet item "offset" = some (.str s) ∧
        mapGet item "size" = some (.num (some sz)) ∧
        sz ≤ MAX_SAFE_INTEGER ∧ parse_u64 s = some off)) ∧
    ((∃ dir, lookahead name item = .ok (.folder name dir)) ↔
      (typedFileShape item = false ∧ hasFilesObj item = true)) ∧
    (typedFileShape item = true →
      (¬ ∃ off sz, lookahead name item = .ok (.file name off sz)) →
      ∃ msg, lookahead name item = .error (.ParseHeaderError msg)) ∧
    (typedFileShape item = false → hasFilesObj item = false →
      lookahead name item = .error (.ParseHeaderError
        ("Error parsing header for entity: " ++ name))) ∧
    ((∃ dir, lookahead "" item = .ok (.home dir)) ↔
      hasFilesObj item = true) ∧
    (hasFilesObj item = false → lookahead "" item =
      .error (.ParseHeaderError "'files' not found in Home directory")) := by
  refine ⟨?_, ?_, ?_, ?_, ?_, ?_⟩
  · constructor
    · rintro ⟨off, sz, h⟩
      unfold lookahead at h
      rw [if_neg hname] at h
      split at h
      · rename_i s n ho hs
        split at h
        · cases h
        · rename_i sz0
          split at h
          · cases h
          · rename_i hgt
            split at h
            · cases h
            · rename_i off0 hp
              cases h
              exact ⟨s, sz, off, ho, hs, by omega, hp⟩
      · split at h
        · cases h
        · cases h
    · rintro ⟨s, sz, off, ho, hs, hle, hp⟩
      refine ⟨off, sz, ?_⟩
      unfold lookahead
      rw [if_neg hname, ho, hs]
      simp only []
      rw [if_neg (by omega : ¬ sz > MAX_SAFE_INTEGER), hp]
  · constructor
    · rintro ⟨dir, h⟩
      unfold lookahead at h
      rw [if_neg hname] at h
      split at h
      · split at h
        · cases h
        · split at h
          · cases h
          · split at h <;> cases h
      · rename_i hne
        split at h
        · rename_i dir0 hf
          cases h
          constructor
          · unfold typedFileShape
            split
            · rename_i s n hos hss
              exact (hne s n hos hss).elim
            · rfl
          · simp [hasFilesObj, hf]
        · cases h
    · rintro ⟨hshape, hfiles⟩
      unfold hasFilesObj at hfiles
      split at hfiles
      · rename_i dir0 hf
        refine ⟨dir0, ?_⟩
        unfold lookahead
        rw [if_neg hname]
        split
        · rename_i s n hos hss
          unfold typedFileShape at hshape
          rw [hos, hss] at hshape
          simp at hshape
        · simp only [hf]
      · cases hfiles
  · intro hshape hnot
    unfold typedFileShape at hshape
    split at hshape
    · rename_i s n hos hss
      unfold lookahead
      rw [if_neg hname, hos, hss]
      simp only []
      cases n with
      | none => exact ⟨_, rfl⟩
      | some sz =>
        simp only []
        by_cases hgt : sz > MAX_SAFE_INTEGER
        · rw [if_pos hgt]
          exact ⟨_, rfl⟩
        · rw [if_neg hgt]
          cases hp : parse_u64 s with
          | none => exact ⟨_, rfl⟩
          | some off =>
            refine absurd ⟨off, sz, ?_⟩ hnot
            unfold lookahead
            rw [if_neg hname, hos, hss]
            simp only []
            rw [if_neg hgt, hp]
    · cases hshape
  · intro hshape hfiles
    unfold lookahead
    rw [if_neg hname]
    split
    · rename_i s n hos hss
      unfold typedFileShape at hshape
      rw [hos, hss] at hshape
      simp at hshape
    · split
      · rename_i dir hf
        unfold hasFilesObj at hfiles
        rw [hf] at hfiles
        simp at hfiles
      · rfl
  · constructor
    · rintro ⟨dir, h⟩
      unfold lookahead at h
      rw [if_pos rfl] at h
      split at h
      · rename_i dir0 hf
        cases h
        simp [hasFilesObj, hf]
      · cases h
    · intro hfiles
      unfold hasFilesObj at hfiles
      split at hfiles
      · rename_i dir0 hf
        refine ⟨dir0, ?_⟩
        unfold lookahead
        rw [if_pos rfl]
        simp only [hf]
      · cases hfiles
  · intro hfiles
    unfold lookahead
    rw [if_pos rfl]
    split
    · rename_i dir0 hf
      unfold hasFilesObj at hfiles
      rw [hf] at hfiles
      simp at hfiles
    · rfl

/-- Witness for `lookahead_classification`: the fixture's `test1.txt`
descriptor instantiates the characterization. -/
theorem lookahead_classification_witness :
    (∃ off sz, lookahead "test1.txt" (JMap.ofList
        [("offset", .str "30023"), ("size", .num (some 21))]) =
      .ok (.file "test1.txt" off sz)) :=
  ((lookahead_classification "test1.txt"
      (JMap.ofList [("offset", .str "30023"), ("size", .num (some 21))])
      (by decide)).1).2
    ⟨"30023", 21, 30023, by decide, by decide, by decide, by decide⟩

/-- Claim C10 (confirmed): on every well-formed tree rooted at a Root
node, `paths_to_vec` emits exactly the paths of the tree's Folder and
File nodes (Root excluded), in node order — pre-order, each folder's own
path immediately before its descendants' paths — and those paths are
pairwise distinct, so each is emitted exactly once.  In general a
folder's own path heads its output block, and on the fixture tree the
enumeration yields exactly `folder1`, `folder1/script.py`,
`folder1/test_image.jpg`, `test1.txt`, in that order. -/
theorem paths_enumeration :
    (∀ m : JMap, jmWf m = true →
      paths_to_vec (.home m) = .ok ((nodesOfMap m []).map (fun e => e.1))) ∧
    (∀ m : JMap, jmWf m = true →
      ((nodesOfMap m []).map (fun e => e.1)).Nodup) ∧
    (∀ (name : String) (dir : JMap) (path : List String)
      (l : List (List String)),
      paths_to_vec_aux (.folder name dir) path = .ok l →
      l.head? = some (path ++ [name])) ∧
    paths_to_vec fixtureHome =
      .ok [["folder1"], ["folder1", "script.py"],
        ["folder1", "test_image.jpg"], ["test1.txt"]] := by
  refine ⟨?_, ?_, ?_, ?_⟩
  · intro m hwf
    rw [paths_to_vec]
    exact home_paths_nodes m hwf
  · intro m hwf
    exact nodesOfMap_nodup m [] hwf
  · intro name dir path l h
    unfold paths_to_vec_aux at h
    simp only [Bind.bind, Except.bind] at h
    cases hs : paths_loop dir (path ++ [name]) with
    | ok sub =>
      rw [hs] at h
      simp at h
      rw [← h]
      rfl
    | error e =>
      rw [hs] at h
      cases h
  · simp [paths_to_vec, home_paths, paths_to_vec_aux, paths_loop, lookahead,
      mapGet, fixtureHome, fixtureMap, folder1Map, JMap.ofList, fileDescIn,
      parse_u64, MAX_SAFE_INTEGER, Bind.bind, Except.bind]

/-- Witness for `paths_enumeration`: the fixture tree's enumeration
equals its node paths, which are pairwise distinct, and the `folder1`
block starts with `folder1`'s own path. -/
theorem paths_enumeration_witness :
    paths_to_vec (.home fixtureMap) =
      .ok ((nodesOfMap fixtureMap []).map (fun e => e.1)) ∧
    ((nodesOfMap fixtureMap []).map (fun e => e.1)).Nodup ∧
    ([["folder1"], ["folder1", "script.py"],
      ["folder1", "test_image.jpg"]] : List (List String)).head? =
      some ([] ++ ["folder1"]) := by
  refine ⟨paths_enumeration.1 fixtureMap fixture_jmWf,
    paths_enumeration.2.1 fixtureMap fixture_jmWf,
    paths_enumeration.2.2.1 "folder1" folder1Map [] _ ?_⟩
  simp [paths_to_vec_aux, paths_loop, lookahead, mapGet, folder1Map,
    JMap.ofList, fileDescIn, parse_u64, MAX_SAFE_INTEGER, Bind.bind,
    Except.bind]

/-- Claim C1 fails on the code (code bug): packing a directory and then
extracting the produced archive does not reproduce the files' bytes.  For
the directory holding the single one-byte file `a` with contents `[1]`,
the walk assigns `a` offset 0 and size 1, but `dir_to_asar` emits `[0, 1]`
as the data region — `Vec::read_to_end` appends the file's bytes after the
`size` zero bytes the buffer was initialised with — so extraction, reading
1 byte at `start + 0`, recreates `a` with contents `[0]` instead of
`[1]`. -/
theorem pack_extract_roundtrip_bug :
    (gen_header_from_dir fsOne).2 = [(["a"], 1)] ∧
    jsonAt (gen_header_from_dir fsOne).1 ["a"] = some (fileDescOut 0 1) ∧
    dir_to_asar (.list (gen_header_from_dir fsOne).2) fsOne = .ok [0, 1] ∧
    new_json (gen_header_from_dir fsOne).1 =
      .ok (.home (.mcons "a" (fileDescOut 0 1) .mnil)) ∧
    asar_to_dir (.home (.mcons "a" (fileDescOut 0 1) .mnil)) [] [0, 1] 0 =
      .ok [.mkdir [], .write ["a"] [0]] ∧
    ([0] : List Nat) ≠ [1] := by
  refine ⟨by decide, by decide, by rfl, by rfl, ?_, by decide⟩
  simp [asar_to_dir, home_extract_loop, lookahead, mapGet, fileDescOut,
    toString_zero, parse_u64, MAX_SAFE_INTEGER, read_exact_at,
    Bind.bind, Except.bind, List.take, List.drop]

/-- Claim C2 fails on the code (code bug): packing files A (10 bytes of 1)
then B (5 bytes of 2) assigns A offset 0 and B offset 10 as the claim
says, but the data region is not `bytes(A) ++ bytes(B)`: for each listed
file `dir_to_asar` writes `size` zero bytes followed by the file's
contents, because `read_to_end` appends to the pre-zeroed buffer instead
of overwriting it. -/
theorem pack_data_region_bug :
    (gen_header_from_dir fsAB).2 = [(["A"], 10), (["B"], 5)] ∧
    jsonAt (gen_header_from_dir fsAB).1 ["A"] = some (fileDescOut 0 10) ∧
    jsonAt (gen_header_from_dir fsAB).1 ["B"] = some (fileDescOut 10 5) ∧
    dir_to_asar (.list (gen_header_from_dir fsAB).2) fsAB =
      .ok (List.replicate 10 0 ++ List.replicate 10 1 ++
        List.replicate 5 0 ++ List.replicate 5 2) ∧
    (List.replicate 10 0 ++ List.replicate 10 1 ++ List.replicate 5 0 ++
      List.replicate 5 2 : List Nat) ≠
      List.replicate 10 1 ++ List.replicate 5 2 := by
  refine ⟨by decide, by decide, by decide, by rfl, by decide⟩


/-- Claim C3 as stated is false: with a zero-size file, the next listed
file reuses its offset, so the assigned offsets are neither strictly
increasing nor duplicate-free.  Walking a directory with empty file `a`
followed by one-byte file `b` lists both, and the header assigns offset 0
to both. -/
theorem offset_assignment_counterexample :
    (gen_header_from_dir fsZero).2 = [(["a"], 0), (["b"], 1)] ∧
    listedOffsets fsZero = [some 0, some 0] ∧
    ¬ (listedOffsets fsZero).Nodup := by
  refine ⟨by decide, by decide, by decide⟩

/-- Claim C3, amended: for every well-formed directory walk, the packing
list is exactly the walked files in enumeration order; the offset recorded
in the produced header at each listed file's path equals the sum of the
sizes of all files listed before it, starting at 0 (so offsets are
contiguous and non-decreasing, and strictly increasing and duplicate-free
whenever every file is non-empty); and the concatenation step consumes the
packing list in exactly that order, appending each listed entry's chunk in
sequence. -/
theorem offset_assignment (fs : Fs) (hwf : fsWf fs = true) :
    (gen_header_from_dir fs).2 = walk fs ∧
    ((withOffsets 0 (walk fs)).map (fun e => (e.1, e.2.2)) = walk fs) ∧
    (∀ q off sz, (q, off, sz) ∈ withOffsets 0 (walk fs) →
      jsonAt (gen_header_from_dir fs).1 q = some (fileDescOut off sz)) ∧
    ((∀ e ∈ walk fs, 0 < e.2) →
      ((withOffsets 0 (walk fs)).map (fun e => e.2.1)).Pairwise (· < ·)) ∧
    (∀ l, (∀ e ∈ l, (readFs fs e.1).isSome) →
      dir_to_asar_go l fs = .ok ((l.map (fun e =>
        List.replicate e.2 0 ++ (readFs fs e.1).getD [])).flatten)) := by
  refine ⟨?_, withOffsets_proj _ 0, dtv_offsets fs [] 0 [] hwf,
    fun hpos => withOffsets_pairwise _ 0 hpos,
    fun l h => dir_to_asar_go_order l fs h⟩
  have h := (dtv_thread fs [] 0 []).2
  simpa [gen_header_from_dir] using h

/-- Witness for `offset_assignment`: on the A-then-B directory the header
records offset 0 for `A` and offset 10 for `B`, and the offsets are
strictly increasing. -/
theorem offset_assignment_witness :
    jsonAt (gen_header_from_dir fsAB).1 ["A"] = some (fileDescOut 0 10) ∧
    jsonAt (gen_header_from_dir fsAB).1 ["B"] = some (fileDescOut 10 5) ∧
    ((withOffsets 0 (walk fsAB)).map (fun e => e.2.1)).Pairwise (· < ·) :=
  ⟨(offset_assignment fsAB (by decide)).2.2.1 ["A"] 0 10 (by decide),
   (offset_assignment fsAB (by decide)).2.2.1 ["B"] 10 5 (by decide),
   (offset_assignment fsAB (by decide)).2.2.2.1 (by decide)⟩

end RustAsar
